import Mathlib

/-!
Shallow embedding of the experiment-summary aggregation engine of the
`llm-tooling-benchmarks` scripts (`average_statistics.py`,
`generate_merge1_plots.py`, `prices.py`), together with theorems settling
the specification claims about it.

Conventions of the embedding:
* JSON scalar values are the inductive `Value`; numbers are exact rationals
  (`ℚ`), with the non-finite floats `nan`, `inf`, `-inf` as separate
  constructors so that Python's finiteness test and its `nan != nan`
  equality are preserved.
* Python dicts are association lists in insertion order with unique keys;
  `alGet` is dict lookup, `setKey` is dict assignment (updating in place,
  appending when fresh).
* The warning strings produced by the scripts are modelled by the
  structured type `Diag`, one constructor per format string, carrying
  exactly the data interpolated into the string.
-/

/-- A JSON scalar value as handled by the scripts.  Finite numbers (ints
and floats) are rationals; the non-finite floats that `json.load` can
produce are separate constructors. -/
inductive Value where
  | num   : ℚ → Value
  | nanV  : Value
  | infV  : Value
  | ninfV : Value
  | strV  : String → Value
  | boolV : Bool → Value
  | nullV : Value
deriving DecidableEq, Repr

/-- `is_number` from `average_statistics.py`: true for int/float values,
excluding booleans, and excluding non-finite floats (`math.isfinite`). -/
def is_number : Value → Bool
  | .num _ => true
  | _ => false

/-- `float(value)` applied to a value the scripts treat as numeric. -/
def toQ : Value → ℚ
  | .num q => q
  | _ => 0

/-- Python `==` on scalar values: `nan` compares unequal to everything
(including itself), booleans compare equal to the numbers 0/1, values of
unrelated types compare unequal. -/
def pyEq : Value → Value → Bool
  | .num a, .num b => a == b
  | .num a, .boolV b => a == (if b then 1 else 0)
  | .boolV a, .num b => (if a then 1 else 0 : ℚ) == b
  | .boolV a, .boolV b => a == b
  | .strV a, .strV b => a == b
  | .infV, .infV => true
  | .ninfV, .ninfV => true
  | .nullV, .nullV => true
  | _, _ => false

/-- Python truthiness of a scalar value (`bool(value)`). -/
def pyTruthy : Value → Bool
  | .num q => q != 0
  | .nanV => true
  | .infV => true
  | .ninfV => true
  | .strV s => s != ""
  | .boolV b => b
  | .nullV => false

/-- A JSON object: an insertion-ordered association list with (for actual
JSON objects) pairwise-distinct keys. -/
abbrev Record := List (String × Value)

/-- Dict lookup: the value bound to `k`, if any (first binding wins). -/
def alGet {α : Type} (l : List (String × α)) (k : String) : Option α :=
  match l.find? (fun kv => kv.1 == k) with
  | some kv => some kv.2
  | none => none

/-- Dict assignment `d[k] = v`: replaces the binding in place when `k` is
already present (keeping its position), appends a new binding otherwise. -/
def setKey {α : Type} (l : List (String × α)) (k : String) (v : α) : List (String × α) :=
  if (l.find? (fun kv => kv.1 == k)).isSome then
    l.map (fun kv => if kv.1 == k then (k, v) else kv)
  else
    l ++ [(k, v)]

/-- The diagnostics (warning strings) of `average_group`, one constructor
per format string, carrying the interpolated data:
* `inconsistent k f` is "Inconsistent non-numeric value for '`k`' in `f`;
  using first encountered."
* `numericMissing k f` is "Numeric key '`k`' missing in `f`."
* `coverage k c t` is "Key '`k`' appears in `c`/`t` files; averaged over
  available values." -/
inductive Diag where
  | inconsistent (key file : String)
  | numericMissing (key file : String)
  | coverage (key : String) (count total : ℕ)
deriving DecidableEq, Repr

/-- The mutable state of one `average_group` pass: the dicts `sums`,
`counts`, `non_numeric`, the list `key_order` and the `warnings` list. -/
structure AggState where
  sums : List (String × ℚ)
  counts : List (String × ℕ)
  nonNumeric : List (String × Value)
  keyOrder : List String
  warnings : List Diag
deriving DecidableEq, Repr

/-- The state at the start of `average_group`: all containers empty. -/
def initState : AggState := ⟨[], [], [], [], []⟩

/-- The body of `for key, value in data.items()` in `average_group`
(lines 70–81): numeric values are accumulated into `sums`/`counts`
(`defaultdict` semantics), non-numeric values are checked against the
first-seen value, a mismatch appending an `inconsistent` warning. -/
def processItem (file : String) (st : AggState) (kv : String × Value) : AggState :=
  if is_number kv.2 then
    { st with
        sums := setKey st.sums kv.1 ((alGet st.sums kv.1).getD 0 + toQ kv.2),
        counts := setKey st.counts kv.1 ((alGet st.counts kv.1).getD 0 + 1) }
  else
    match alGet st.nonNumeric kv.1 with
    | some w =>
        if pyEq kv.2 w then st
        else { st with warnings := st.warnings ++ [.inconsistent kv.1 file] }
    | none => { st with nonNumeric := st.nonNumeric ++ [(kv.1, kv.2)] }

/-- `for key in data: if key not in key_order: key_order.append(key)`. -/
def updKeyOrder (ko : List String) (keys : List String) : List String :=
  keys.foldl (fun acc k => if k ∈ acc then acc else acc ++ [k]) ko

/-- The per-file guard loop (lines 82–84): for each key of `sums` whose
count is zero, a `numericMissing` warning. -/
def missingWarns (st : AggState) (file : String) : List Diag :=
  st.sums.filterMap (fun kv =>
    if (alGet st.counts kv.1).getD 0 = 0 then some (.numericMissing kv.1 file) else none)

/-- Folding one record's items through `processItem`. -/
def stepItems (file : String) (st : AggState) (data : Record) : AggState :=
  data.foldl (processItem file) st

/-- Processing one file inside the `for path in sorted(file_list)` loop:
key order first, then the items, then the zero-count guard loop. -/
def processFile (st : AggState) (file : String) (data : Record) : AggState :=
  let st1 := { st with keyOrder := updKeyOrder st.keyOrder (data.map Prod.fst) }
  let st2 := stepItems file st1 data
  { st2 with warnings := st2.warnings ++ missingWarns st2 file }

/-- The whole accumulation loop of `average_group` over an (already
sorted) list of (file name, record) pairs. -/
def runFiles (files : List (String × Record)) : AggState :=
  files.foldl (fun st fd => processFile st fd.1 fd.2) initState

/-- Codepoint comparison of characters, as Python compares strings. -/
def charLtB (a b : Char) : Bool := a.toNat < b.toNat

/-- Lexicographic (codepoint) order on character lists; this is how Python
orders the path names of the files of one directory. -/
def strLeB : List Char → List Char → Bool
  | [], _ => true
  | _ :: _, [] => false
  | a :: as, b :: bs => charLtB a b || (a.toNat == b.toNat && strLeB as bs)

/-- Ordering of (file name, record) pairs by file name, the order in which
`sorted(file_list)` hands files to the accumulation loop. -/
def leByName (a b : String × Record) : Prop := strLeB a.1.data b.1.data = true

instance : DecidableRel leByName := fun a b => by
  unfold leByName; infer_instance

/-- `sorted(file_list)`: the cohort's files in lexicographic name order. -/
def sortByName (files : List (String × Record)) : List (String × Record) :=
  files.insertionSort leByName

/-- One iteration of the output-building loop of `average_group`
(lines 88–99): averaged value for keys with numeric contributions (plus a
`coverage` warning when the count misses some files), first-seen value for
purely non-numeric keys. -/
def buildStep (total : ℕ) (st : AggState) (acc : Record × List Diag) (k : String) :
    Record × List Diag :=
  match alGet st.sums k with
  | some s =>
      let c := (alGet st.counts k).getD 0
      if c = 0 then acc
      else
        (setKey acc.1 k (.num (s / (c : ℚ))),
         if c ≠ total then acc.2 ++ [.coverage k c total] else acc.2)
  | none =>
      match alGet st.nonNumeric k with
      | some v => (setKey acc.1 k v, acc.2)
      | none => acc

/-- The catch-up loop of `average_group` (lines 102–104): numeric keys not
yet in the result (none in practice) get their average appended. -/
def catchUp (st : AggState) (res : Record) : Record :=
  st.sums.foldl (fun res kv =>
    if (alGet res kv.1).isNone ∧ (alGet st.counts kv.1).getD 0 ≠ 0 then
      setKey res kv.1 (.num (kv.2 / ((alGet st.counts kv.1).getD 0 : ℚ)))
    else res) res

/-- The state accumulated by `average_group` over the sorted cohort. -/
def aggStateOf (files : List (String × Record)) : AggState :=
  runFiles (sortByName files)

/-- `average_group` from `average_statistics.py`: the aggregate record and
the warnings for one cohort, given as (file name, record) pairs. -/
def average_group (files : List (String × Record)) : Record × List Diag :=
  if files = [] then ([], [])
  else
    let st := aggStateOf files
    let total := files.length
    let rw := st.keyOrder.foldl (buildStep total st) ([], st.warnings)
    let res2 := catchUp st rw.1
    (setKey res2 "number of runs" (.num (files.length : ℚ)), rw.2)

/-! ### Price table and cost estimator (`prices.py`, `generate_merge1_plots.py`) -/

/-- `PRICES` from `prices.py`: (input price, output price) in USD per
million tokens, keyed by model identifier, in insertion order. -/
def PRICES : List (String × ℚ × ℚ) := [
  ("grok-3-fast", 0.3, 0.5),
  ("gpt-5", 1.25, 10.00),
  ("gpt-5-mini", 0.25, 2.00),
  ("gpt-5-nano", 0.05, 0.40),
  ("gpt-5-chat-latest", 1.25, 10.00),
  ("gpt-5-codex", 1.25, 10.00),
  ("gpt-5-pro", 15.00, 120.00),
  ("gpt-4.1", 2.00, 8.00),
  ("gpt-4.1-mini", 0.40, 1.60),
  ("gpt-4.1-nano", 0.10, 0.40),
  ("gpt-4o", 2.50, 10.00),
  ("gpt-4o-2024-05-13", 5.00, 15.00),
  ("gpt-4o-mini", 0.15, 0.60),
  ("gpt-realtime", 4.00, 16.00),
  ("gpt-realtime-mini", 0.60, 2.40),
  ("gpt-4o-realtime-preview", 5.00, 20.00),
  ("gpt-4o-mini-realtime-preview", 0.60, 2.40),
  ("gpt-audio", 2.50, 10.00),
  ("gpt-audio-mini", 0.60, 2.40),
  ("gpt-4o-audio-preview", 2.50, 10.00),
  ("gpt-4o-mini-audio-preview", 0.15, 0.60),
  ("o1", 15.00, 60.00),
  ("o1-pro", 150.00, 600.00),
  ("o3-pro", 20.00, 80.00),
  ("o3", 2.00, 8.00),
  ("o3-deep-research", 10.00, 40.00),
  ("o4-mini", 1.10, 4.40),
  ("o4-mini-deep-research", 2.00, 8.00),
  ("o3-mini", 1.10, 4.40),
  ("o1-mini", 1.10, 4.40),
  ("codex-mini-latest", 1.50, 6.00),
  ("gpt-5-search-api", 1.25, 10.00),
  ("gpt-4o-mini-search-preview", 0.15, 0.60),
  ("gpt-4o-search-preview", 2.50, 10.00),
  ("computer-use-preview", 3.00, 12.00),
  ("gpt-image-1", 5.00, 0.00),
  ("gpt-image-1-mini", 2.00, 0.00)]

/-- Python `str.strip()` whitespace test, restricted to the ASCII
whitespace characters (the inputs of interest are ASCII). -/
def pyIsSpace (c : Char) : Bool :=
  c = ' ' || c = '\t' || c = '\n' || c = '\r' || c = '\x0b' || c = '\x0c'

/-- `str.strip()`: drop whitespace from both ends. -/
def pyStrip (cs : List Char) : List Char :=
  ((cs.dropWhile pyIsSpace).reverse.dropWhile pyIsSpace).reverse

/-- `str.lower()`, restricted to ASCII case mapping. -/
def pyLowerChar (c : Char) : Char :=
  if 'A' ≤ c ∧ c ≤ 'Z' then Char.ofNat (c.toNat + 32) else c

/-- `str.lower()` over a character list. -/
def pyLower (cs : List Char) : List Char := cs.map pyLowerChar

/-- `s.split(c)[-1]`: the substring after the last occurrence of `c`
(the whole string when `c` does not occur). -/
def afterLastC (c : Char) (cs : List Char) : List Char :=
  (cs.reverse.takeWhile (fun x => x ≠ c)).reverse

/-- Membership test of a key in the price table (`key in PRICES`). -/
def inPrices (s : List Char) : Bool := (alGet PRICES (String.mk s)).isSome

/-- `a` is a contiguous leading segment of `b` (character lists). -/
def listIsPfx : List Char → List Char → Bool
  | [], _ => true
  | _ :: _, [] => false
  | a :: as, b :: bs => a == b && listIsPfx as bs

/-- Python substring containment `needle in hay` (character lists). -/
def listHasSub (needle : List Char) : List Char → Bool
  | [] => needle.isEmpty
  | c :: cs => listIsPfx needle (c :: cs) || listHasSub needle cs

/-- `normalize_model_key` from `generate_merge1_plots.py`: three-tier
resolution of a free-form model name to a `PRICES` key, returning `""`
when nothing resolves. -/
def normalize_model_key (model : String) : String :=
  if model = "" then ""
  else
    let normalized := pyLower (pyStrip model.data)
    if inPrices normalized then String.mk normalized
    else
      let tail := afterLastC '/' (afterLastC '.' normalized)
      if inPrices tail then String.mk tail
      else
        match PRICES.find? (fun kv => listHasSub kv.1.data normalized) with
        | some kv => kv.1
        | none => ""

/-- Python `x or 0.0` for a float `x`. -/
def orZero (x : ℚ) : ℚ := if x = 0 then 0 else x

/-- `compute_cost_usd` from `generate_merge1_plots.py`. -/
def compute_cost_usd (model : String) (avg_input_tokens avg_output_tokens : ℚ) : ℚ :=
  let key := normalize_model_key model
  if key = "" ∨ (alGet PRICES key).isNone then 0
  else
    match alGet PRICES key with
    | none => 0
    | some (input_price, output_price) =>
        orZero avg_input_tokens * (input_price / 1000000) +
        orZero avg_output_tokens * (output_price / 1000000)

/-- The three-tier resolution exactly as §4.3 of the specification words
it: (a) exact match of the normalized name; (b) else exact match of the
substring after the last dot-style and path-style separator; (c) else the
first price-table key, in insertion order, occurring as a substring of the
normalized name. -/
def specResolveName (model : String) : String :=
  if model = "" then ""
  else
    let normalized := pyLower (pyStrip model.data)
    if inPrices normalized then String.mk normalized
    else
      let tail := (normalized.reverse.takeWhile (fun x => x ≠ '.' ∧ x ≠ '/')).reverse
      if inPrices tail then String.mk tail
      else
        match (PRICES.map Prod.fst).find? (fun k => listHasSub k.data normalized) with
        | some k => k
        | none => ""

/-! ### Cohort grouping (`SUMMARY_PATTERN`, `collect_groups`) -/

/-- Strip a leading segment: `dropPfx p l = some r` iff `l = p ++ r`. -/
def dropPfx : List Char → List Char → Option (List Char)
  | [], rest => some rest
  | _ :: _, [] => none
  | p :: ps, c :: cs => if p = c then dropPfx ps cs else none

/-- Strip the trailing segment `sfx`: `some r` iff the list is `r ++ sfx`. -/
def stripTail (sfx cs : List Char) : Option (List Char) :=
  (dropPfx sfx.reverse cs.reverse).map List.reverse

/-- Split at the last underscore: `some (A, B)` with the input equal to
`A ++ '_' :: B` and no underscore in `B`; `none` when there is no
underscore. -/
def splitLastU : List Char → Option (List Char × List Char)
  | [] => none
  | c :: cs =>
      match splitLastU cs with
      | some (A, B) => some (c :: A, B)
      | none => if c = '_' then some ([], cs) else none

/-- The characters of the fixed suffix `_summary.json`. -/
def sfxChars : List Char := "_summary.json".data

/-- Matching `SUMMARY_PATTERN = ^(?P<prefix>.+)_id[^_]+_summary\.json$`
against a character list (no trailing-newline handling): the captured
group, if the pattern matches.  The `.+` group is greedy, so the captured
segment runs up to the *last* underscore compatible with the rest of the
pattern; `.` does not match a newline, `[^_]` does. -/
def pyMatchCore (cs : List Char) : Option (List Char) :=
  match stripTail sfxChars cs with
  | none => none
  | some R =>
      match splitLastU R with
      | none => none
      | some (A, B) =>
          match B with
          | 'i' :: 'd' :: T =>
              if T ≠ [] ∧ A ≠ [] ∧ '\n' ∉ A then some A else none
          | _ => none

/-- `SUMMARY_PATTERN.match(name)`: Python's `$` also matches just before a
newline that ends the string. -/
def pyMatchName (name : String) : Option String :=
  let cs := name.data
  let core := if cs.getLast? = some '\n' then cs.dropLast else cs
  (pyMatchCore core).map String.mk

/-- `data_dir.glob("*.json")` membership: `pathlib`'s `*` matches any
characters (including leading dots and newlines), so the pattern keeps
exactly the names ending in `.json`. -/
def globStarJson (name : String) : Bool := listIsPfx ".json".data.reverse name.data.reverse

/-- `groups[prefix].append(path)` with `defaultdict(list)`. -/
def addToGroup (gs : List (String × List String)) (p name : String) :
    List (String × List String) :=
  match alGet gs p with
  | some ms => setKey gs p (ms ++ [name])
  | none => gs ++ [(p, [name])]

/-- `collect_groups` from `average_statistics.py`, over the list of file
names found in the data directory: group the names matching
`SUMMARY_PATTERN` by their captured cohort key. -/
def collect_groups (names : List String) : List (String × List String) :=
  names.foldl (fun gs n =>
    if globStarJson n then
      match pyMatchName n with
      | some p => addToGroup gs p n
      | none => gs
    else gs) []

/-- The shape the claim describes: the name decomposes as
`<key>_id<token>_summary.json` with the key non-empty and the token
non-empty and underscore-free. -/
def SummaryShape (name : String) : Prop :=
  ∃ P T : List Char, name.data = P ++ "_id".data ++ T ++ sfxChars ∧
    P ≠ [] ∧ T ≠ [] ∧ '_' ∉ T

/-- `SummaryShape` strengthened by the restriction the regex's `.+` group
actually enforces: no newline in the key. -/
def SummaryShapeNL (name : String) : Prop :=
  ∃ P T : List Char, name.data = P ++ "_id".data ++ T ++ sfxChars ∧
    P ≠ [] ∧ T ≠ [] ∧ '_' ∉ T ∧ '\n' ∉ P

/-! ### Chart loader metrics construction (`load_merge1_summaries`) -/

/-- The keys the chart loaders skip. -/
def SKIP_KEYS : List String := ["number of runs"]

/-- The loader's numeric test `isinstance(value, (int, float))`: unlike
`is_number` it accepts booleans and non-finite floats. -/
def isNumLoose : Value → Bool
  | .num _ => true
  | .nanV => true
  | .infV => true
  | .ninfV => true
  | .boolV _ => true
  | _ => false

/-- `float(value)` as the loader applies it to values passing
`isNumLoose`: booleans become 0.0/1.0, non-finite floats stay themselves. -/
def pyFloatV : Value → Value
  | .boolV b => .num (if b then 1 else 0)
  | v => v

/-- The numeric-metrics dict the loader builds from one summary record
(lines 88–94 of `generate_merge1_plots.py`). -/
def baseMetrics (data : Record) : List (String × Value) :=
  data.filterMap (fun kv =>
    if kv.1 ∈ SKIP_KEYS then none
    else if isNumLoose kv.2 then some (kv.1, pyFloatV kv.2) else none)

/-- `data.get("model name") or model`, as passed to `compute_cost_usd`:
`none` models the `AttributeError` Python raises when the field holds a
truthy non-string value (which `.strip()` would be called on). -/
def modelArg (model : String) (data : Record) : Option String :=
  match alGet data "model name" with
  | none => some model
  | some v =>
      if pyTruthy v then
        match v with
        | .strV s => some s
        | _ => none
      else some model

/-- A metric read back for the cost computation
(`metrics.get(key, 0.0)`); non-finite values are outside this model (no
claim depends on a cohort with non-finite token counts). -/
def metricQ (metrics : List (String × Value)) (k : String) : ℚ :=
  match alGet metrics k with
  | some v => toQ v
  | none => 0

/-- The metrics construction of `load_merge1_summaries` for one summary
record (lines 88–101): the numeric metrics, plus — when token counts are
present — `avg_cost_usd` inserted via `setdefault`; `none` models the
exception raised when the cost estimator is handed a truthy non-string
model name. -/
def loadMetrics (model : String) (data : Record) : Option (List (String × Value)) :=
  let metrics := baseMetrics data
  if (alGet metrics "avg_input_tokens").isSome ∨ (alGet metrics "avg_output_tokens").isSome then
    match modelArg model data with
    | none => none
    | some m =>
        let cost := compute_cost_usd m (metricQ metrics "avg_input_tokens")
          (metricQ metrics "avg_output_tokens")
        some (if (alGet metrics "avg_cost_usd").isSome then metrics
              else metrics ++ [("avg_cost_usd", .num cost)])
  else some metrics

/-! ### Occurrence extractors used to state properties of `average_group` -/

/-- The numeric occurrences of field `k` across a (sorted) cohort, as the
floats added into `sums[k]`, in processing order. -/
def numOccsK (k : String) (L : List (String × Record)) : List ℚ :=
  L.filterMap (fun fd =>
    match alGet fd.2 k with
    | some v => if is_number v then some (toQ v) else none
    | none => none)

/-- The non-numeric occurrences of field `k` across a (sorted) cohort,
with the carrying file's name, in processing order. -/
def nonNumOccsK (k : String) (L : List (String × Record)) : List (String × Value) :=
  L.filterMap (fun fd =>
    match alGet fd.2 k with
    | some v => if is_number v then none else some (fd.1, v)
    | none => none)

/-- How many `inconsistent k f` warnings the accumulation loop emits for a
cohort processed in the order of `L`: one per non-numeric occurrence of
`k` after the first whose carrying file is `f` and whose value differs
(by Python equality) from the first-seen value. -/
def inconCount (k f : String) (L : List (String × Record)) : ℕ :=
  match nonNumOccsK k L with
  | [] => 0
  | (_, w) :: rest => (rest.filter (fun fv => fv.1 == f && !pyEq fv.2 w)).length

/-- The `inconsistent` warnings one file's items append, given the
`non_numeric` dict as it stands when the file starts (valid because a dict
has each key at most once). -/
def fileWarns (file : String) (st : AggState) (data : Record) : List Diag :=
  data.filterMap (fun kv =>
    if is_number kv.2 then none
    else
      match alGet st.nonNumeric kv.1 with
      | some w => if pyEq kv.2 w then none else some (.inconsistent kv.1 file)
      | none => none)

/-- Strict name ordering on (file name, record) pairs. -/
def ltByName (a b : String × Record) : Prop :=
  strLeB a.1.data b.1.data = true ∧ a.1 ≠ b.1

/-! ### Association-list lemmas -/

theorem alGet_nil {α : Type} (k : String) : alGet ([] : List (String × α)) k = none := rfl

theorem alGet_cons {α : Type} (k' : String) (v : α) (l : List (String × α)) (k : String) :
    alGet ((k', v) :: l) k = if k' = k then some v else alGet l k := by
  by_cases h : k' = k <;> simp [alGet, List.find?_cons, h]

theorem alGet_append {α : Type} (l m : List (String × α)) (k : String) :
    alGet (l ++ m) k = match alGet l k with
      | some v => some v
      | none => alGet m k := by
  induction l with
  | nil => simp [alGet_nil]
  | cons kv l ih =>
      obtain ⟨k', v⟩ := kv
      by_cases h : k' = k <;> simp [alGet_cons, h, ih]

theorem alGet_isSome_iff {α : Type} (l : List (String × α)) (k : String) :
    (alGet l k).isSome ↔ k ∈ l.map Prod.fst := by
  induction l with
  | nil => simp [alGet_nil]
  | cons kv l ih =>
      obtain ⟨k', v⟩ := kv
      by_cases h : k' = k <;> simp [alGet_cons, h, ih]
      exact fun h' => (h h'.symm).elim

theorem alGet_eq_none_iff {α : Type} (l : List (String × α)) (k : String) :
    alGet l k = none ↔ k ∉ l.map Prod.fst := by
  rw [← alGet_isSome_iff]
  cases alGet l k <;> simp

theorem alGet_find_isSome {α : Type} (l : List (String × α)) (k : String) :
    (l.find? (fun kv => kv.1 == k)).isSome = (alGet l k).isSome := by
  unfold alGet
  cases l.find? (fun kv => kv.1 == k) <;> rfl

theorem alGet_mapSet_self {α : Type} (l : List (String × α)) (k : String) (v : α)
    (h : (alGet l k).isSome) :
    alGet (l.map (fun kv => if kv.1 == k then (k, v) else kv)) k = some v := by
  induction l with
  | nil => simp [alGet_nil] at h
  | cons kv l ih =>
      obtain ⟨k', w⟩ := kv
      by_cases hk : k' = k
      · subst hk
        simp only [List.map_cons, beq_self_eq_true, if_true, alGet_cons, if_pos rfl]
      · have hk' : (k' == k) = false := by simp [hk]
        rw [alGet_cons] at h
        rw [if_neg hk] at h
        simp only [List.map_cons, hk', Bool.false_eq_true, if_false, alGet_cons, if_neg hk]
        exact ih h

theorem alGet_mapSet_ne {α : Type} (l : List (String × α)) (k : String) (v : α)
    (k' : String) (h : k' ≠ k) :
    alGet (l.map (fun kv => if kv.1 == k then (k, v) else kv)) k' = alGet l k' := by
  induction l with
  | nil => rfl
  | cons kv l ih =>
      obtain ⟨k₁, w⟩ := kv
      by_cases hk : k₁ = k
      · subst hk
        simp only [List.map_cons, beq_self_eq_true, if_true, alGet_cons]
        rw [if_neg (Ne.symm h), if_neg (fun hh => h hh.symm)]
        exact ih
      · have hk' : (k₁ == k) = false := by simp [hk]
        simp only [List.map_cons, hk', Bool.false_eq_true, if_false, alGet_cons]
        by_cases h1 : k₁ = k'
        · rw [if_pos h1, if_pos h1]
        · rw [if_neg h1, if_neg h1]
          exact ih

theorem setKey_of_absent {α : Type} (l : List (String × α)) (k : String) (v : α)
    (h : alGet l k = none) : setKey l k v = l ++ [(k, v)] := by
  unfold setKey
  rw [alGet_find_isSome, h]
  rfl

theorem setKey_of_present {α : Type} (l : List (String × α)) (k : String) (v : α)
    (h : (alGet l k).isSome) :
    setKey l k v = l.map (fun kv => if kv.1 == k then (k, v) else kv) := by
  unfold setKey
  rw [alGet_find_isSome, h]
  rfl

theorem alGet_setKey_self {α : Type} (l : List (String × α)) (k : String) (v : α) :
    alGet (setKey l k v) k = some v := by
  cases hs : (alGet l k) with
  | some w =>
      rw [setKey_of_present l k v (by simp [hs])]
      exact alGet_mapSet_self l k v (by simp [hs])
  | none =>
      rw [setKey_of_absent l k v hs, alGet_append, hs]
      simp [alGet_cons]

theorem alGet_setKey_ne {α : Type} (l : List (String × α)) (k k' : String) (v : α)
    (h : k' ≠ k) : alGet (setKey l k v) k' = alGet l k' := by
  cases hs : (alGet l k) with
  | some w =>
      rw [setKey_of_present l k v (by simp [hs])]
      exact alGet_mapSet_ne l k v k' h
  | none =>
      rw [setKey_of_absent l k v hs, alGet_append]
      cases hg : alGet l k' with
      | some w => rfl
      | none => simp [alGet_cons, Ne.symm h, alGet_nil]

theorem alGet_setKey_isSome {α : Type} (l : List (String × α)) (k k' : String) (v : α)
    (h : (alGet l k').isSome) : (alGet (setKey l k v) k').isSome := by
  by_cases hk : k' = k
  · subst hk; simp [alGet_setKey_self]
  · rw [alGet_setKey_ne _ _ _ _ hk]; exact h

/-! ### Effect of one item on the accumulation state -/

theorem processItem_keyOrder (f : String) (st : AggState) (it : String × Value) :
    (processItem f st it).keyOrder = st.keyOrder := by
  unfold processItem
  split
  · rfl
  · split
    · split <;> rfl
    · rfl

theorem processItem_sums_ne (f : String) (st : AggState) (it : String × Value)
    (k : String) (h : it.1 ≠ k) :
    alGet (processItem f st it).sums k = alGet st.sums k := by
  unfold processItem
  split
  · exact alGet_setKey_ne _ _ _ _ (Ne.symm h)
  · split
    · split <;> rfl
    · rfl

theorem processItem_counts_ne (f : String) (st : AggState) (it : String × Value)
    (k : String) (h : it.1 ≠ k) :
    alGet (processItem f st it).counts k = alGet st.counts k := by
  unfold processItem
  split
  · exact alGet_setKey_ne _ _ _ _ (Ne.symm h)
  · split
    · split <;> rfl
    · rfl

theorem processItem_nn_ne (f : String) (st : AggState) (it : String × Value)
    (k : String) (h : it.1 ≠ k) :
    alGet (processItem f st it).nonNumeric k = alGet st.nonNumeric k := by
  obtain ⟨k₁, v₁⟩ := it
  replace h : k₁ ≠ k := h
  unfold processItem
  split
  · rfl
  · split
    · split <;> rfl
    · rw [alGet_append]
      cases hg : alGet st.nonNumeric k with
      | some w => rfl
      | none => simp [alGet_cons, alGet_nil, h]

theorem processItem_sums_num (f : String) (st : AggState) (it : String × Value)
    (h : is_number it.2 = true) :
    alGet (processItem f st it).sums it.1 =
      some ((alGet st.sums it.1).getD 0 + toQ it.2) := by
  unfold processItem
  rw [if_pos h]
  exact alGet_setKey_self _ _ _

theorem processItem_counts_num (f : String) (st : AggState) (it : String × Value)
    (h : is_number it.2 = true) :
    alGet (processItem f st it).counts it.1 =
      some ((alGet st.counts it.1).getD 0 + 1) := by
  unfold processItem
  rw [if_pos h]
  exact alGet_setKey_self _ _ _

theorem processItem_nn_num (f : String) (st : AggState) (it : String × Value)
    (h : is_number it.2 = true) :
    (processItem f st it).nonNumeric = st.nonNumeric := by
  unfold processItem
  rw [if_pos h]

theorem processItem_sums_nonnum (f : String) (st : AggState) (it : String × Value)
    (h : is_number it.2 = false) :
    (processItem f st it).sums = st.sums := by
  unfold processItem
  rw [if_neg (by simp [h])]
  split
  · split <;> rfl
  · rfl

theorem processItem_counts_nonnum (f : String) (st : AggState) (it : String × Value)
    (h : is_number it.2 = false) :
    (processItem f st it).counts = st.counts := by
  unfold processItem
  rw [if_neg (by simp [h])]
  split
  · split <;> rfl
  · rfl

theorem processItem_nn_nonnum (f : String) (st : AggState) (it : String × Value)
    (h : is_number it.2 = false) :
    alGet (processItem f st it).nonNumeric it.1 =
      match alGet st.nonNumeric it.1 with
      | some w => some w
      | none => some it.2 := by
  obtain ⟨k₁, v₁⟩ := it
  unfold processItem
  rw [if_neg (by simp_all)]
  cases hg : alGet st.nonNumeric k₁ with
  | some w =>
      simp only [hg]
      split <;> simp [hg]
  | none =>
      simp only [hg]
      rw [alGet_append, hg]
      simp [alGet_cons]

/-- The warning(s) one item appends, in terms of the state it sees. -/
def itemWarn (f : String) (st : AggState) (it : String × Value) : List Diag :=
  if is_number it.2 then []
  else
    match alGet st.nonNumeric it.1 with
    | some w => if pyEq it.2 w then [] else [.inconsistent it.1 f]
    | none => []

theorem processItem_warnings (f : String) (st : AggState) (it : String × Value) :
    (processItem f st it).warnings = st.warnings ++ itemWarn f st it := by
  unfold processItem itemWarn
  split
  · simp
  · split
    · split <;> simp_all
    · simp

/-! ### Effect of one whole record on the accumulation state -/

/-- How one file's occurrence of a key updates `sums[k]`. -/
def sumUpd (old : Option ℚ) (occ : Option Value) : Option ℚ :=
  match occ with
  | some v => if is_number v then some (old.getD 0 + toQ v) else old
  | none => old

/-- How one file's occurrence of a key updates `counts[k]`. -/
def cntUpd (old : Option ℕ) (occ : Option Value) : Option ℕ :=
  match occ with
  | some v => if is_number v then some (old.getD 0 + 1) else old
  | none => old

/-- How one file's occurrence of a key updates `non_numeric[k]`. -/
def nnUpd (old : Option Value) (occ : Option Value) : Option Value :=
  match occ with
  | some v =>
      if is_number v then old
      else
        match old with
        | some w => some w
        | none => some v
  | none => old

theorem stepItems_keyOrder (f : String) (data : Record) (st : AggState) :
    (stepItems f st data).keyOrder = st.keyOrder := by
  induction data generalizing st with
  | nil => rfl
  | cons it rest ih =>
      show (stepItems f (processItem f st it) rest).keyOrder = st.keyOrder
      rw [ih, processItem_keyOrder]

theorem stepItems_sums_absent (f : String) (data : Record) (st : AggState) (k : String)
    (h : k ∉ data.map Prod.fst) :
    alGet (stepItems f st data).sums k = alGet st.sums k := by
  induction data generalizing st with
  | nil => rfl
  | cons it rest ih =>
      simp only [List.map_cons, List.mem_cons, not_or] at h
      show alGet (stepItems f (processItem f st it) rest).sums k = alGet st.sums k
      rw [ih _ h.2, processItem_sums_ne f st it k (fun hh => h.1 hh.symm)]

theorem stepItems_counts_absent (f : String) (data : Record) (st : AggState) (k : String)
    (h : k ∉ data.map Prod.fst) :
    alGet (stepItems f st data).counts k = alGet st.counts k := by
  induction data generalizing st with
  | nil => rfl
  | cons it rest ih =>
      simp only [List.map_cons, List.mem_cons, not_or] at h
      show alGet (stepItems f (processItem f st it) rest).counts k = alGet st.counts k
      rw [ih _ h.2, processItem_counts_ne f st it k (fun hh => h.1 hh.symm)]

theorem stepItems_nn_absent (f : String) (data : Record) (st : AggState) (k : String)
    (h : k ∉ data.map Prod.fst) :
    alGet (stepItems f st data).nonNumeric k = alGet st.nonNumeric k := by
  induction data generalizing st with
  | nil => rfl
  | cons it rest ih =>
      simp only [List.map_cons, List.mem_cons, not_or] at h
      show alGet (stepItems f (processItem f st it) rest).nonNumeric k = alGet st.nonNumeric k
      rw [ih _ h.2, processItem_nn_ne f st it k (fun hh => h.1 hh.symm)]

theorem stepItems_sums (f : String) (data : Record) (hnd : (data.map Prod.fst).Nodup)
    (st : AggState) (k : String) :
    alGet (stepItems f st data).sums k = sumUpd (alGet st.sums k) (alGet data k) := by
  induction data generalizing st with
  | nil => rfl
  | cons it rest ih =>
      obtain ⟨k₁, v₁⟩ := it
      simp only [List.map_cons, List.nodup_cons] at hnd
      show alGet (stepItems f (processItem f st (k₁, v₁)) rest).sums k =
        sumUpd (alGet st.sums k) (alGet ((k₁, v₁) :: rest) k)
      by_cases hk : k₁ = k
      · subst hk
        rw [stepItems_sums_absent f rest _ k₁ hnd.1, alGet_cons, if_pos rfl]
        cases hnum : is_number v₁ with
        | true =>
            rw [processItem_sums_num f st (k₁, v₁) hnum]
            simp [sumUpd, hnum]
        | false =>
            rw [processItem_sums_nonnum f st (k₁, v₁) hnum]
            simp [sumUpd, hnum]
      · rw [ih hnd.2, alGet_cons, if_neg hk, processItem_sums_ne f st (k₁, v₁) k hk]

theorem stepItems_counts (f : String) (data : Record) (hnd : (data.map Prod.fst).Nodup)
    (st : AggState) (k : String) :
    alGet (stepItems f st data).counts k = cntUpd (alGet st.counts k) (alGet data k) := by
  induction data generalizing st with
  | nil => rfl
  | cons it rest ih =>
      obtain ⟨k₁, v₁⟩ := it
      simp only [List.map_cons, List.nodup_cons] at hnd
      show alGet (stepItems f (processItem f st (k₁, v₁)) rest).counts k =
        cntUpd (alGet st.counts k) (alGet ((k₁, v₁) :: rest) k)
      by_cases hk : k₁ = k
      · subst hk
        rw [stepItems_counts_absent f rest _ k₁ hnd.1, alGet_cons, if_pos rfl]
        cases hnum : is_number v₁ with
        | true =>
            rw [processItem_counts_num f st (k₁, v₁) hnum]
            simp [cntUpd, hnum]
        | false =>
            rw [processItem_counts_nonnum f st (k₁, v₁) hnum]
            simp [cntUpd, hnum]
      · rw [ih hnd.2, alGet_cons, if_neg hk, processItem_counts_ne f st (k₁, v₁) k hk]

theorem stepItems_nn (f : String) (data : Record) (hnd : (data.map Prod.fst).Nodup)
    (st : AggState) (k : String) :
    alGet (stepItems f st data).nonNumeric k = nnUpd (alGet st.nonNumeric k) (alGet data k) := by
  induction data generalizing st with
  | nil => rfl
  | cons it rest ih =>
      obtain ⟨k₁, v₁⟩ := it
      simp only [List.map_cons, List.nodup_cons] at hnd
      show alGet (stepItems f (processItem f st (k₁, v₁)) rest).nonNumeric k =
        nnUpd (alGet st.nonNumeric k) (alGet ((k₁, v₁) :: rest) k)
      by_cases hk : k₁ = k
      · subst hk
        rw [stepItems_nn_absent f rest _ k₁ hnd.1, alGet_cons, if_pos rfl]
        cases hnum : is_number v₁ with
        | true =>
            rw [processItem_nn_num f st (k₁, v₁) hnum]
            simp [nnUpd, hnum]
        | false =>
            rw [processItem_nn_nonnum f st (k₁, v₁) hnum]
            simp only [nnUpd, hnum, Bool.false_eq_true, if_false]
      · rw [ih hnd.2, alGet_cons, if_neg hk, processItem_nn_ne f st (k₁, v₁) k hk]

theorem fileWarns_cons (f : String) (st : AggState) (it : String × Value) (rest : Record) :
    fileWarns f st (it :: rest) = itemWarn f st it ++ fileWarns f st rest := by
  unfold fileWarns itemWarn
  rw [List.filterMap_cons]
  cases hnum : is_number it.2 with
  | true => simp [hnum]
  | false =>
      cases hg : alGet st.nonNumeric it.1 with
      | some w =>
          cases hpe : pyEq it.2 w with
          | true => simp [hnum, hg, hpe]
          | false => simp [hnum, hg, hpe]
      | none => simp [hnum, hg]

theorem stepItems_warnings (f : String) (data : Record) (hnd : (data.map Prod.fst).Nodup)
    (st : AggState) :
    (stepItems f st data).warnings = st.warnings ++ fileWarns f st data := by
  induction data generalizing st with
  | nil => simp [stepItems, fileWarns]
  | cons it rest ih =>
      simp only [List.map_cons, List.nodup_cons] at hnd
      show (stepItems f (processItem f st it) rest).warnings = _
      rw [ih hnd.2, processItem_warnings, fileWarns_cons, List.append_assoc]
      congr 1
      congr 1
      apply List.filterMap_congr
      intro kv hkv
      have hne : kv.1 ≠ it.1 := by
        intro hh
        exact hnd.1 (hh ▸ (List.mem_map_of_mem Prod.fst hkv))
      rw [processItem_nn_ne f st it kv.1 (fun hh => hne hh.symm)]

/-! ### Reachability invariants of the accumulation state -/

/-- Every key of `sums` has been counted at least once. -/
def SCinv (st : AggState) : Prop :=
  ∀ kv ∈ st.sums, ∃ c, alGet st.counts kv.1 = some c ∧ 1 ≤ c

/-- Every key of `sums` is in `key_order`. -/
def KSinv (st : AggState) : Prop :=
  ∀ kv ∈ st.sums, kv.1 ∈ st.keyOrder

theorem mem_setKey {α : Type} {kv : String × α} {l : List (String × α)} {k : String} {v : α}
    (h : kv ∈ setKey l k v) : kv.1 = k ∨ kv ∈ l := by
  unfold setKey at h
  split at h
  · rcases List.mem_map.mp h with ⟨a, ha, hEq⟩
    by_cases hk : a.1 = k
    · left
      rw [← hEq]
      simp [hk]
    · right
      rw [← hEq]
      rw [if_neg (by simp [hk])]
      exact ha
  · rcases List.mem_append.mp h with h1 | h1
    · exact Or.inr h1
    · left
      rw [List.mem_singleton.mp h1]

theorem processItem_sums_eq_num (f : String) (st : AggState) (it : String × Value)
    (h : is_number it.2 = true) :
    (processItem f st it).sums = setKey st.sums it.1 ((alGet st.sums it.1).getD 0 + toQ it.2) := by
  unfold processItem
  rw [if_pos h]

theorem processItem_counts_eq_num (f : String) (st : AggState) (it : String × Value)
    (h : is_number it.2 = true) :
    (processItem f st it).counts =
      setKey st.counts it.1 ((alGet st.counts it.1).getD 0 + 1) := by
  unfold processItem
  rw [if_pos h]

theorem SCinv_processItem (f : String) (st : AggState) (it : String × Value)
    (h : SCinv st) : SCinv (processItem f st it) := by
  cases hnum : is_number it.2 with
  | true =>
      intro kv hkv
      rw [processItem_sums_eq_num f st it hnum] at hkv
      rw [processItem_counts_eq_num f st it hnum]
      rcases mem_setKey hkv with hk | hk
      · refine ⟨(alGet st.counts it.1).getD 0 + 1, ?_, ?_⟩
        · rw [hk]
          exact alGet_setKey_self _ _ _
        · omega
      · by_cases he : kv.1 = it.1
        · refine ⟨(alGet st.counts it.1).getD 0 + 1, ?_, ?_⟩
          · rw [he]
            exact alGet_setKey_self _ _ _
          · omega
        · rcases h kv hk with ⟨c, hc, hc1⟩
          exact ⟨c, by rw [alGet_setKey_ne _ _ _ _ he]; exact hc, hc1⟩
  | false =>
      intro kv hkv
      rw [processItem_sums_nonnum f st it hnum] at hkv
      rw [processItem_counts_nonnum f st it hnum]
      exact h kv hkv

theorem SCinv_stepItems (f : String) (data : Record) (st : AggState)
    (h : SCinv st) : SCinv (stepItems f st data) := by
  induction data generalizing st with
  | nil => exact h
  | cons it rest ih => exact ih _ (SCinv_processItem f st it h)

theorem missingWarns_of_SC (st : AggState) (f : String) (h : SCinv st) :
    missingWarns st f = [] := by
  unfold missingWarns
  rw [List.filterMap_eq_nil_iff]
  intro kv hkv
  rcases h kv hkv with ⟨c, hc, hc1⟩
  rw [hc]
  simp
  omega

theorem SCinv_processFile (st : AggState) (f : String) (data : Record)
    (h : SCinv st) : SCinv (processFile st f data) := by
  unfold processFile SCinv
  have h1 : SCinv { st with keyOrder := updKeyOrder st.keyOrder (data.map Prod.fst) } := h
  exact SCinv_stepItems f data _ h1

theorem runFiles_app (L : List (String × Record)) (fd : String × Record) :
    runFiles (L ++ [fd]) = processFile (runFiles L) fd.1 fd.2 := by
  unfold runFiles
  rw [List.foldl_append]
  rfl

theorem SCinv_runFiles (L : List (String × Record)) : SCinv (runFiles L) := by
  induction L using List.reverseRecOn with
  | nil => intro kv hkv; simp [runFiles, initState] at hkv
  | append_singleton L fd ih =>
      rw [runFiles_app]
      exact SCinv_processFile _ _ _ ih

theorem updKeyOrder_mem (ks : List String) (ko : List String) (x : String) :
    x ∈ updKeyOrder ko ks ↔ x ∈ ko ∨ x ∈ ks := by
  induction ks generalizing ko with
  | nil => simp [updKeyOrder]
  | cons k ks ih =>
      show x ∈ updKeyOrder (if k ∈ ko then ko else ko ++ [k]) ks ↔ _
      rw [ih]
      by_cases hk : k ∈ ko
      · simp only [if_pos hk, List.mem_cons]
        constructor
        · rintro (h | h)
          · exact Or.inl h
          · exact Or.inr (Or.inr h)
        · rintro (h | h | h)
          · exact Or.inl h
          · exact Or.inl (h ▸ hk)
          · exact Or.inr h
      · simp only [if_neg hk, List.mem_append, List.mem_singleton, List.mem_cons]
        tauto

theorem updKeyOrder_nodup (ks : List String) (ko : List String) (h : ko.Nodup) :
    (updKeyOrder ko ks).Nodup := by
  induction ks generalizing ko with
  | nil => exact h
  | cons k ks ih =>
      show (updKeyOrder (if k ∈ ko then ko else ko ++ [k]) ks).Nodup
      apply ih
      by_cases hk : k ∈ ko
      · simpa [hk] using h
      · rw [if_neg hk]
        rw [List.nodup_append]
        exact ⟨h, List.nodup_singleton _, by simpa using hk⟩

theorem processFile_keyOrder (st : AggState) (f : String) (data : Record) :
    (processFile st f data).keyOrder = updKeyOrder st.keyOrder (data.map Prod.fst) := by
  unfold processFile
  rw [stepItems_keyOrder]

theorem keyOrder_nodup_runFiles (L : List (String × Record)) :
    (runFiles L).keyOrder.Nodup := by
  induction L using List.reverseRecOn with
  | nil => simp [runFiles, initState]
  | append_singleton L fd ih =>
      rw [runFiles_app, processFile_keyOrder]
      exact updKeyOrder_nodup _ _ ih

theorem keyOrder_mem_runFiles (L : List (String × Record)) (k : String) :
    k ∈ (runFiles L).keyOrder ↔ ∃ fd ∈ L, k ∈ fd.2.map Prod.fst := by
  induction L using List.reverseRecOn with
  | nil => simp [runFiles, initState]
  | append_singleton L fd ih =>
      rw [runFiles_app, processFile_keyOrder, updKeyOrder_mem, ih]
      constructor
      · rintro (⟨fd', hfd', hk⟩ | hk)
        · exact ⟨fd', by simp [hfd'], hk⟩
        · exact ⟨fd, by simp, hk⟩
      · rintro ⟨fd', hfd', hk⟩
        rcases List.mem_append.mp hfd' with h1 | h1
        · exact Or.inl ⟨fd', h1, hk⟩
        · rw [List.mem_singleton.mp h1] at hk
          exact Or.inr hk

theorem KSinv_processItem (f : String) (st : AggState) (it : String × Value)
    (hin : it.1 ∈ st.keyOrder) (h : KSinv st) : KSinv (processItem f st it) := by
  intro kv hkv
  rw [processItem_keyOrder]
  cases hnum : is_number it.2 with
  | true =>
      rw [processItem_sums_eq_num f st it hnum] at hkv
      rcases mem_setKey hkv with hk | hk
      · exact hk ▸ hin
      · exact h kv hk
  | false =>
      rw [processItem_sums_nonnum f st it hnum] at hkv
      exact h kv hkv

theorem KSinv_stepItems (f : String) (data : Record) (st : AggState)
    (hin : ∀ k ∈ data.map Prod.fst, k ∈ st.keyOrder) (h : KSinv st) :
    KSinv (stepItems f st data) := by
  induction data generalizing st with
  | nil => exact h
  | cons it rest ih =>
      refine ih _ ?_ (KSinv_processItem f st it (hin it.1 (by simp)) h)
      intro k hk
      rw [processItem_keyOrder]
      exact hin k (by simp [hk])

theorem KSinv_processFile (st : AggState) (f : String) (data : Record)
    (h : KSinv st) : KSinv (processFile st f data) := by
  unfold processFile KSinv
  intro kv hkv
  have h1 : KSinv { st with keyOrder := updKeyOrder st.keyOrder (data.map Prod.fst) } := by
    intro kv' hkv'
    show kv'.1 ∈ updKeyOrder st.keyOrder (data.map Prod.fst)
    rw [updKeyOrder_mem]
    exact Or.inl (h kv' hkv')
  have h2 := KSinv_stepItems f data _ (fun k hk => by
    show k ∈ updKeyOrder st.keyOrder (data.map Prod.fst)
    rw [updKeyOrder_mem]
    exact Or.inr hk) h1
  exact h2 kv hkv

theorem KSinv_runFiles (L : List (String × Record)) : KSinv (runFiles L) := by
  induction L using List.reverseRecOn with
  | nil => intro kv hkv; simp [runFiles, initState] at hkv
  | append_singleton L fd ih =>
      rw [runFiles_app]
      exact KSinv_processFile _ _ _ ih

/-! ### The warnings the accumulation loop can produce -/

theorem itemWarn_shape (f : String) (st : AggState) (it : String × Value)
    (d : Diag) (h : d ∈ itemWarn f st it) : ∃ k g, d = .inconsistent k g := by
  unfold itemWarn at h
  split at h
  · simp at h
  · split at h
    · split at h
      · simp at h
      · exact ⟨it.1, f, List.mem_singleton.mp h⟩
    · simp at h

theorem stepItems_warn_shape (f : String) (data : Record) (st : AggState)
    (d : Diag) (h : d ∈ (stepItems f st data).warnings) :
    d ∈ st.warnings ∨ ∃ k g, d = .inconsistent k g := by
  induction data generalizing st with
  | nil => exact Or.inl h
  | cons it rest ih =>
      rcases ih (processItem f st it) h with h1 | h1
      · rw [processItem_warnings] at h1
        rcases List.mem_append.mp h1 with h2 | h2
        · exact Or.inl h2
        · exact Or.inr (itemWarn_shape f st it d h2)
      · exact Or.inr h1

theorem processFile_warn_shape (st : AggState) (f : String) (data : Record)
    (hsc : SCinv st) (d : Diag) (h : d ∈ (processFile st f data).warnings) :
    d ∈ st.warnings ∨ ∃ k g, d = .inconsistent k g := by
  unfold processFile at h
  simp only at h
  have hmw : missingWarns
      (stepItems f { st with keyOrder := updKeyOrder st.keyOrder (data.map Prod.fst) } data) f
      = [] := missingWarns_of_SC _ _ (SCinv_stepItems f data _ hsc)
  rw [hmw, List.append_nil] at h
  exact stepItems_warn_shape f data
    { st with keyOrder := updKeyOrder st.keyOrder (data.map Prod.fst) } d h

theorem warn_shape_runFiles (L : List (String × Record)) (d : Diag)
    (h : d ∈ (runFiles L).warnings) : ∃ k g, d = .inconsistent k g := by
  induction L using List.reverseRecOn with
  | nil => simp [runFiles, initState] at h
  | append_singleton L fd ih =>
      rw [runFiles_app] at h
      rcases processFile_warn_shape _ _ _ (SCinv_runFiles L) d h with h1 | h1
      · exact ih h1
      · exact h1

theorem processFile_warnings (st : AggState) (f : String) (data : Record)
    (hnd : (data.map Prod.fst).Nodup) (hsc : SCinv st) :
    (processFile st f data).warnings = st.warnings ++ fileWarns f st data := by
  unfold processFile
  simp only
  have hmw : missingWarns
      (stepItems f { st with keyOrder := updKeyOrder st.keyOrder (data.map Prod.fst) } data) f
      = [] := missingWarns_of_SC _ _ (SCinv_stepItems f data _ hsc)
  rw [hmw, List.append_nil]
  exact stepItems_warnings f data hnd
    { st with keyOrder := updKeyOrder st.keyOrder (data.map Prod.fst) }

/-! ### The accumulation state after a whole cohort -/

theorem processFile_sums (st : AggState) (f : String) (data : Record)
    (hnd : (data.map Prod.fst).Nodup) (k : String) :
    alGet (processFile st f data).sums k = sumUpd (alGet st.sums k) (alGet data k) :=
  stepItems_sums f data hnd { st with keyOrder := updKeyOrder st.keyOrder (data.map Prod.fst) } k

theorem processFile_counts (st : AggState) (f : String) (data : Record)
    (hnd : (data.map Prod.fst).Nodup) (k : String) :
    alGet (processFile st f data).counts k = cntUpd (alGet st.counts k) (alGet data k) :=
  stepItems_counts f data hnd { st with keyOrder := updKeyOrder st.keyOrder (data.map Prod.fst) } k

theorem processFile_nn (st : AggState) (f : String) (data : Record)
    (hnd : (data.map Prod.fst).Nodup) (k : String) :
    alGet (processFile st f data).nonNumeric k = nnUpd (alGet st.nonNumeric k) (alGet data k) :=
  stepItems_nn f data hnd { st with keyOrder := updKeyOrder st.keyOrder (data.map Prod.fst) } k

/-- The (zero or one) numeric contributions of one file to `sums[k]`. -/
def occListNum (k : String) (fd : String × Record) : List ℚ :=
  match alGet fd.2 k with
  | some v => if is_number v then [toQ v] else []
  | none => []

/-- The (zero or one) non-numeric occurrences of `k` in one file. -/
def occListNN (k : String) (fd : String × Record) : List (String × Value) :=
  match alGet fd.2 k with
  | some v => if is_number v then [] else [(fd.1, v)]
  | none => []

theorem numOccsK_append (k : String) (L M : List (String × Record)) :
    numOccsK k (L ++ M) = numOccsK k L ++ numOccsK k M := by
  unfold numOccsK
  exact List.filterMap_append L M _

theorem nonNumOccsK_append (k : String) (L M : List (String × Record)) :
    nonNumOccsK k (L ++ M) = nonNumOccsK k L ++ nonNumOccsK k M := by
  unfold nonNumOccsK
  exact List.filterMap_append L M _

theorem numOccsK_singleton (k : String) (fd : String × Record) :
    numOccsK k [fd] = occListNum k fd := by
  unfold numOccsK occListNum
  rw [List.filterMap_cons]
  cases hg : alGet fd.2 k with
  | some v => cases hnum : is_number v <;> simp [hg, hnum]
  | none => simp [hg]

theorem nonNumOccsK_singleton (k : String) (fd : String × Record) :
    nonNumOccsK k [fd] = occListNN k fd := by
  unfold nonNumOccsK occListNN
  rw [List.filterMap_cons]
  cases hg : alGet fd.2 k with
  | some v => cases hnum : is_number v <;> simp [hg, hnum]
  | none => simp [hg]

/-- The contents of `sums[k]`, phrased on the occurrence list. -/
def optSumOf (l : List ℚ) : Option ℚ := if l = [] then none else some l.sum

/-- The contents of `counts[k]`, phrased on the occurrence list. -/
def optLenOf (l : List ℚ) : Option ℕ := if l = [] then none else some l.length

theorem sums_runFiles (L : List (String × Record))
    (hL : ∀ fd ∈ L, (fd.2.map Prod.fst).Nodup) (k : String) :
    alGet (runFiles L).sums k = optSumOf (numOccsK k L) := by
  induction L using List.reverseRecOn with
  | nil => simp [runFiles, initState, numOccsK, optSumOf, alGet_nil]
  | append_singleton L fd ih =>
      have hfd : (fd.2.map Prod.fst).Nodup := hL fd (by simp)
      have hL' : ∀ fd' ∈ L, (fd'.2.map Prod.fst).Nodup := fun fd' h => hL fd' (by simp [h])
      rw [runFiles_app, processFile_sums _ _ _ hfd, ih hL', numOccsK_append,
        numOccsK_singleton]
      unfold sumUpd occListNum optSumOf
      cases hg : alGet fd.2 k with
      | some v =>
          cases hnum : is_number v with
          | true =>
              simp only [hnum, if_true]
              by_cases hnil : numOccsK k L = []
              · simp [hnil]
              · simp only [hnil, if_false, Option.getD_some]
                rw [if_neg (by simp [hnil]), List.sum_append]
                simp
          | false => simp [hnum]
      | none => simp

theorem counts_runFiles (L : List (String × Record))
    (hL : ∀ fd ∈ L, (fd.2.map Prod.fst).Nodup) (k : String) :
    alGet (runFiles L).counts k = optLenOf (numOccsK k L) := by
  induction L using List.reverseRecOn with
  | nil => simp [runFiles, initState, numOccsK, optLenOf, alGet_nil]
  | append_singleton L fd ih =>
      have hfd : (fd.2.map Prod.fst).Nodup := hL fd (by simp)
      have hL' : ∀ fd' ∈ L, (fd'.2.map Prod.fst).Nodup := fun fd' h => hL fd' (by simp [h])
      rw [runFiles_app, processFile_counts _ _ _ hfd, ih hL', numOccsK_append,
        numOccsK_singleton]
      unfold cntUpd occListNum optLenOf
      cases hg : alGet fd.2 k with
      | some v =>
          cases hnum : is_number v with
          | true =>
              simp only [hnum, if_true]
              by_cases hnil : numOccsK k L = []
              · simp [hnil]
              · simp only [hnil, if_false, Option.getD_some]
                rw [if_neg (by simp [hnil]), List.length_append]
                simp
          | false => simp [hnum]
      | none => simp

theorem nn_runFiles (L : List (String × Record))
    (hL : ∀ fd ∈ L, (fd.2.map Prod.fst).Nodup) (k : String) :
    alGet (runFiles L).nonNumeric k = ((nonNumOccsK k L).head?).map Prod.snd := by
  induction L using List.reverseRecOn with
  | nil => simp [runFiles, initState, nonNumOccsK, alGet_nil]
  | append_singleton L fd ih =>
      have hfd : (fd.2.map Prod.fst).Nodup := hL fd (by simp)
      have hL' : ∀ fd' ∈ L, (fd'.2.map Prod.fst).Nodup := fun fd' h => hL fd' (by simp [h])
      rw [runFiles_app, processFile_nn _ _ _ hfd, ih hL', nonNumOccsK_append,
        nonNumOccsK_singleton]
      unfold nnUpd occListNN
      cases hg : alGet fd.2 k with
      | some v =>
          cases hnum : is_number v with
          | true => simp [hnum]
          | false =>
              simp only [hnum, Bool.false_eq_true, if_false]
              cases hocc : nonNumOccsK k L with
              | nil => simp
              | cons p rest => simp
      | none => simp

/-! ### Counting the `inconsistent` warnings -/

/-- The number of `inconsistent k f` warnings one file emits for key `k`,
as a function of the first-seen non-numeric value for `k` (`stnn`) and the
file's own occurrence of `k` (`occ`); `g` is the file's name. -/
def fwCount (g : String) (stnn occ : Option Value) (f : String) : ℕ :=
  match occ with
  | some v =>
      if is_number v then 0
      else
        match stnn with
        | some w => if pyEq v w then 0 else (if g = f then 1 else 0)
        | none => 0
  | none => 0

theorem count_itemWarn_ne (g : String) (st : AggState) (it : String × Value)
    (k f : String) (h : it.1 ≠ k) :
    (itemWarn g st it).count (.inconsistent k f) = 0 := by
  unfold itemWarn
  split
  · rfl
  · split
    · split
      · rfl
      · rw [List.count_singleton]
        simp [h]
    · rfl

theorem count_fileWarns_absent (g : String) (st : AggState) (data : Record)
    (k f : String) (h : k ∉ data.map Prod.fst) :
    (fileWarns g st data).count (.inconsistent k f) = 0 := by
  induction data with
  | nil => rfl
  | cons it rest ih =>
      simp only [List.map_cons, List.mem_cons, not_or] at h
      rw [fileWarns_cons, List.count_append,
        count_itemWarn_ne g st it k f (fun hh => h.1 hh.symm), ih h.2]

theorem count_fileWarns (g : String) (st : AggState) (data : Record)
    (hnd : (data.map Prod.fst).Nodup) (k f : String) :
    (fileWarns g st data).count (.inconsistent k f) =
      fwCount g (alGet st.nonNumeric k) (alGet data k) f := by
  induction data with
  | nil => rfl
  | cons it rest ih =>
      obtain ⟨k₁, v₁⟩ := it
      simp only [List.map_cons, List.nodup_cons] at hnd
      rw [fileWarns_cons, List.count_append]
      by_cases hk : k₁ = k
      · subst hk
        rw [count_fileWarns_absent g st rest k₁ f hnd.1, alGet_cons, if_pos rfl]
        unfold itemWarn fwCount
        cases hnum : is_number v₁ with
        | true => simp [hnum]
        | false =>
            simp only [hnum, Bool.false_eq_true, if_false]
            cases hg : alGet st.nonNumeric k₁ with
            | some w =>
                cases hpe : pyEq v₁ w with
                | true => simp [hpe]
                | false =>
                    simp only [hpe, Bool.false_eq_true, if_false]
                    rw [List.count_singleton]
                    by_cases hgf : g = f <;> simp [hgf]
            | none => simp
      · rw [count_itemWarn_ne g st (k₁, v₁) k f hk, ih hnd.2, alGet_cons, if_neg hk]
        simp

theorem inconCount_append (k f : String) (L : List (String × Record)) (g : String)
    (d : Record) :
    inconCount k f (L ++ [(g, d)]) =
      inconCount k f L +
        fwCount g (((nonNumOccsK k L).head?).map Prod.snd) (alGet d k) f := by
  unfold inconCount
  rw [nonNumOccsK_append, nonNumOccsK_singleton]
  unfold occListNN fwCount
  cases hg : alGet d k with
  | some v =>
      cases hnum : is_number v with
      | true =>
          simp only [hnum, if_true, List.append_nil]
          cases nonNumOccsK k L <;> simp
      | false =>
          simp only [hnum, Bool.false_eq_true, if_false]
          cases hocc : nonNumOccsK k L with
          | nil => simp
          | cons p rest =>
              obtain ⟨f0, w⟩ := p
              simp only [List.cons_append, List.head?_cons, Option.map_some,
                List.filter_append, List.length_append]
              congr 1
              rw [List.filter_cons, List.filter_nil]
              by_cases hgf : g = f
              · subst hgf
                cases hpe : pyEq v w with
                | true => simp [hpe]
                | false => simp [hpe]
              · have : (g == f && !pyEq v w) = false := by
                  simp [hgf]
                cases hpe : pyEq v w with
                | true => simp [hpe, this]
                | false => simp [hpe, this, hgf]
  | none =>
      simp only [List.append_nil]
      cases nonNumOccsK k L <;> simp

theorem warnings_count_runFiles (L : List (String × Record))
    (hL : ∀ fd ∈ L, (fd.2.map Prod.fst).Nodup) (k f : String) :
    (runFiles L).warnings.count (.inconsistent k f) = inconCount k f L := by
  induction L using List.reverseRecOn with
  | nil => rfl
  | append_singleton L fd ih =>
      obtain ⟨g, d⟩ := fd
      have hfd : (d.map Prod.fst).Nodup := hL (g, d) (by simp)
      have hL' : ∀ fd' ∈ L, (fd'.2.map Prod.fst).Nodup := fun fd' h => hL fd' (by simp [h])
      rw [runFiles_app, processFile_warnings _ _ _ hfd (SCinv_runFiles L),
        List.count_append, ih hL', count_fileWarns _ _ _ hfd,
        nn_runFiles L hL' k, inconCount_append]

/-! ### The output-building loop -/

/-- What the building loop contributes to the result for key `k`. -/
def buildF (total : ℕ) (st : AggState) (k : String) : Option (String × Value) :=
  match alGet st.sums k with
  | some s =>
      let c := (alGet st.counts k).getD 0
      if c = 0 then none else some (k, .num (s / (c : ℚ)))
  | none => (alGet st.nonNumeric k).map (fun v => (k, v))

/-- What the building loop contributes to the warnings for key `k`. -/
def buildW (total : ℕ) (st : AggState) (k : String) : Option Diag :=
  match alGet st.sums k with
  | some _ =>
      let c := (alGet st.counts k).getD 0
      if c = 0 then none
      else if c ≠ total then some (.coverage k c total) else none
  | none => none

theorem buildStep_char (total : ℕ) (st : AggState) (res : Record) (ws : List Diag)
    (k : String) :
    buildStep total st (res, ws) k =
      ((match buildF total st k with
        | some kv => setKey res k kv.2
        | none => res),
       ws ++ (buildW total st k).toList) := by
  unfold buildStep buildF buildW
  cases hs : alGet st.sums k with
  | some s =>
      simp only
      by_cases hc : (alGet st.counts k).getD 0 = 0
      · simp [hc]
      · by_cases ht : (alGet st.counts k).getD 0 ≠ total <;> simp [hc, ht]
  | none =>
      simp only
      cases hg : alGet st.nonNumeric k <;> simp

theorem buildF_tag (total : ℕ) (st : AggState) (k : String) (kv : String × Value)
    (h : buildF total st k = some kv) : kv.1 = k := by
  unfold buildF at h
  cases hs : alGet st.sums k with
  | some s =>
      rw [hs] at h
      simp only at h
      by_cases hc : (alGet st.counts k).getD 0 = 0
      · rw [if_pos hc] at h
        exact absurd h (by simp)
      · rw [if_neg hc] at h
        rw [← Option.some_inj.mp h]
  | none =>
      rw [hs] at h
      simp only at h
      rcases Option.map_eq_some'.mp h with ⟨v, hv, hkv⟩
      rw [← hkv]

theorem buildW_shape (total : ℕ) (st : AggState) (k : String) (d : Diag)
    (h : buildW total st k = some d) :
    ∃ c, d = .coverage k c total ∧ alGet st.counts k = some c ∧ c ≠ 0 ∧ c ≠ total := by
  unfold buildW at h
  split at h
  · by_cases hc : (alGet st.counts k).getD 0 = 0
    · rw [if_pos hc] at h
      exact absurd h (by simp)
    · rw [if_neg hc] at h
      by_cases ht : (alGet st.counts k).getD 0 ≠ total
      · rw [if_pos ht] at h
        refine ⟨(alGet st.counts k).getD 0, Option.some_inj.mp h.symm, ?_, hc, ht⟩
        cases hcc : alGet st.counts k with
        | some c => rfl
        | none => rw [hcc] at hc; simp at hc
      · rw [if_neg ht] at h
        exact absurd h (by simp)
  · exact absurd h (by simp)

theorem buildFold (total : ℕ) (st : AggState) (ks : List String) (hnd : ks.Nodup)
    (res : Record) (ws : List Diag) (hres : ∀ k ∈ ks, alGet res k = none) :
    ks.foldl (buildStep total st) (res, ws) =
      (res ++ ks.filterMap (buildF total st), ws ++ ks.filterMap (buildW total st)) := by
  induction ks generalizing res ws with
  | nil => simp
  | cons k ks ih =>
      simp only [List.nodup_cons] at hnd
      rw [List.foldl_cons, buildStep_char]
      cases hbf : buildF total st k with
      | some kv =>
          have hres0 : alGet res k = none := hres k (by simp)
          have hkv : kv = (k, kv.2) := by
            have := buildF_tag total st k kv hbf
            cases kv
            simp_all
          simp only
          rw [setKey_of_absent res k kv.2 hres0]
          rw [ih hnd.2 (res ++ [(k, kv.2)]) _ ?_]
          · simp only [List.filterMap_cons, hbf]
            cases hbw : buildW total st k with
            | some d => simp [← hkv]
            | none => simp [← hkv]
          · intro k' hk'
            rw [alGet_append, hres k' (by simp [hk'])]
            have hne : k ≠ k' := fun hh => hnd.1 (hh ▸ hk')
            simp [alGet_cons, hne, alGet_nil]
      | none =>
          simp only
          rw [ih hnd.2 res _ (fun k' hk' => hres k' (by simp [hk']))]
          simp only [List.filterMap_cons, hbf]
          cases hbw : buildW total st k with
          | some d => simp
          | none => simp

theorem alGet_filterMap_tagged {α : Type} (F : String → Option (String × α))
    (htag : ∀ k kv, F k = some kv → kv.1 = k) (ks : List String) (hnd : ks.Nodup)
    (k : String) (hk : k ∈ ks) :
    alGet (ks.filterMap F) k = (F k).map Prod.snd := by
  induction ks with
  | nil => simp at hk
  | cons k' ks ih =>
      simp only [List.nodup_cons] at hnd
      rw [List.filterMap_cons]
      rcases List.mem_cons.mp hk with hk1 | hk1
      · subst hk1
        cases hF : F k with
        | some kv =>
            have hkv := htag k kv hF
            rw [alGet_cons]
            rw [hkv, if_pos rfl]
            rfl
        | none =>
            simp only
            have : alGet (ks.filterMap F) k = none := by
              rw [alGet_eq_none_iff]
              intro hmem
              rcases List.mem_map.mp hmem with ⟨kv, hkv, hfst⟩
              rcases List.mem_filterMap.mp hkv with ⟨k'', hk'', hF''⟩
              have := htag k'' kv hF''
              exact hnd.1 (by rw [← hfst, this]; exact hk'')
            rw [this]
            rfl
      · have hne : k' ≠ k := fun hh => hnd.1 (hh ▸ hk1)
        cases hF : F k' with
        | some kv =>
            have hkv := htag k' kv hF
            rw [alGet_cons, hkv, if_neg hne]
            exact ih hnd.2 hk1
        | none => exact ih hnd.2 hk1

theorem alGet_filterMap_tagged_absent {α : Type} (F : String → Option (String × α))
    (htag : ∀ k kv, F k = some kv → kv.1 = k) (ks : List String)
    (k : String) (hk : k ∉ ks) :
    alGet (ks.filterMap F) k = none := by
  rw [alGet_eq_none_iff]
  intro hmem
  rcases List.mem_map.mp hmem with ⟨kv, hkv, hfst⟩
  rcases List.mem_filterMap.mp hkv with ⟨k'', hk'', hF''⟩
  have := htag k'' kv hF''
  exact hk (by rw [← hfst, this]; exact hk'')

theorem catchUp_covered (st : AggState) (res : Record)
    (h : ∀ kv ∈ st.sums, (alGet res kv.1).isSome) : catchUp st res = res := by
  unfold catchUp
  have main : ∀ (l : List (String × ℚ)) (res : Record),
      (∀ kv ∈ l, (alGet res kv.1).isSome) →
      l.foldl (fun res kv =>
        if (alGet res kv.1).isNone ∧ (alGet st.counts kv.1).getD 0 ≠ 0 then
          setKey res kv.1 (.num (kv.2 / ((alGet st.counts kv.1).getD 0 : ℚ)))
        else res) res = res := by
    intro l
    induction l with
    | nil => intro res _; rfl
    | cons kv l ih =>
        intro res h'
        rw [List.foldl_cons]
        rcases Option.isSome_iff_exists.mp (h' kv (by simp)) with ⟨x, hx⟩
        rw [if_neg (by simp [hx])]
        exact ih res (fun kv' hkv' => h' kv' (by simp [hkv']))
  exact main st.sums res h

theorem catchUp_isSome (st : AggState) (res : Record) (k : String)
    (h : (alGet res k).isSome) : (alGet (catchUp st res) k).isSome := by
  unfold catchUp
  have main : ∀ (l : List (String × ℚ)) (res : Record),
      (alGet res k).isSome →
      (alGet (l.foldl (fun res kv =>
        if (alGet res kv.1).isNone ∧ (alGet st.counts kv.1).getD 0 ≠ 0 then
          setKey res kv.1 (.num (kv.2 / ((alGet st.counts kv.1).getD 0 : ℚ)))
        else res) res) k).isSome := by
    intro l
    induction l with
    | nil => intro res h'; exact h'
    | cons kv l ih =>
        intro res h'
        rw [List.foldl_cons]
        split
        · exact ih _ (alGet_setKey_isSome _ _ _ _ h')
        · exact ih _ h'
  exact main st.sums res h

/-! ### Characterizing `average_group` -/

theorem aggStateOf_eq (files : List (String × Record)) :
    aggStateOf files = runFiles (sortByName files) := rfl

theorem sortByName_perm (files : List (String × Record)) :
    (sortByName files).Perm files := List.perm_insertionSort _ _

theorem averageGroup_decomp (files : List (String × Record)) (hne : files ≠ []) :
    average_group files =
      (setKey (catchUp (aggStateOf files)
          ((aggStateOf files).keyOrder.filterMap (buildF files.length (aggStateOf files))))
        "number of runs" (.num (files.length : ℚ)),
       (aggStateOf files).warnings ++
         (aggStateOf files).keyOrder.filterMap (buildW files.length (aggStateOf files))) := by
  unfold average_group
  rw [if_neg hne]
  simp only
  rw [buildFold files.length (aggStateOf files) (aggStateOf files).keyOrder
    (by rw [aggStateOf_eq]; exact keyOrder_nodup_runFiles _) [] (aggStateOf files).warnings
    (fun k _ => alGet_nil k)]
  simp

theorem sums_covered (files : List (String × Record)) :
    ∀ kv ∈ (aggStateOf files).sums,
      (alGet ((aggStateOf files).keyOrder.filterMap (buildF files.length (aggStateOf files)))
        kv.1).isSome := by
  intro kv hkv
  rw [aggStateOf_eq] at hkv ⊢
  have hmem : kv.1 ∈ (runFiles (sortByName files)).keyOrder :=
    KSinv_runFiles (sortByName files) kv hkv
  have hsome : (alGet (runFiles (sortByName files)).sums kv.1).isSome :=
    (alGet_isSome_iff _ _).mpr (List.mem_map_of_mem _ hkv)
  rcases Option.isSome_iff_exists.mp hsome with ⟨s, hs⟩
  rcases SCinv_runFiles (sortByName files) kv hkv with ⟨c, hc, hc1⟩
  rw [alGet_filterMap_tagged _ (buildF_tag files.length _) _
    (keyOrder_nodup_runFiles _) kv.1 hmem]
  unfold buildF
  rw [hs, hc]
  have : c ≠ 0 := by omega
  simp [this]

theorem averageGroup_value (files : List (String × Record)) (hne : files ≠ [])
    (hkeys : ∀ fd ∈ files, (fd.2.map Prod.fst).Nodup) (k : String)
    (hk : k ≠ "number of runs") :
    alGet (average_group files).1 k =
      if numOccsK k (sortByName files) = [] then
        ((nonNumOccsK k (sortByName files)).head?).map Prod.snd
      else
        some (.num ((numOccsK k (sortByName files)).sum /
          ((numOccsK k (sortByName files)).length : ℚ))) := by
  have hLkeys : ∀ fd ∈ sortByName files, (fd.2.map Prod.fst).Nodup :=
    fun fd h => hkeys fd ((sortByName_perm files).mem_iff.mp h)
  rw [averageGroup_decomp files hne]
  simp only
  rw [alGet_setKey_ne _ _ _ _ hk, catchUp_covered _ _ (sums_covered files)]
  rw [aggStateOf_eq]
  by_cases hmem : k ∈ (runFiles (sortByName files)).keyOrder
  · rw [alGet_filterMap_tagged _ (buildF_tag files.length _) _
      (keyOrder_nodup_runFiles _) k hmem]
    unfold buildF
    rw [sums_runFiles _ hLkeys k, counts_runFiles _ hLkeys k, nn_runFiles _ hLkeys k]
    unfold optSumOf optLenOf
    by_cases hnil : numOccsK k (sortByName files) = []
    · simp only [hnil, if_pos rfl]
      simp [Option.map_map]
      rfl
    · simp only [hnil, if_neg, if_false]
      have hlen : (numOccsK k (sortByName files)).length ≠ 0 := by
        simpa [List.length_eq_zero] using hnil
      simp [hlen]
  · rw [alGet_filterMap_tagged_absent _ (buildF_tag files.length _) _ k hmem]
    have hnone : ∀ fd ∈ sortByName files, alGet fd.2 k = none := by
      intro fd hfd
      rw [alGet_eq_none_iff]
      intro hcontra
      exact hmem ((keyOrder_mem_runFiles _ k).mpr ⟨fd, hfd, hcontra⟩)
    have h1 : numOccsK k (sortByName files) = [] := by
      unfold numOccsK
      rw [List.filterMap_eq_nil_iff]
      intro fd hfd
      rw [hnone fd hfd]
    have h2 : nonNumOccsK k (sortByName files) = [] := by
      unfold nonNumOccsK
      rw [List.filterMap_eq_nil_iff]
      intro fd hfd
      rw [hnone fd hfd]
    simp [h1, h2]

theorem coverage_mem_avg_iff (files : List (String × Record)) (hne : files ≠ [])
    (hkeys : ∀ fd ∈ files, (fd.2.map Prod.fst).Nodup) (k : String) (c t : ℕ) :
    Diag.coverage k c t ∈ (average_group files).2 ↔
      (numOccsK k (sortByName files) ≠ [] ∧ c = (numOccsK k (sortByName files)).length ∧
        t = files.length ∧ c ≠ files.length) := by
  have hLkeys : ∀ fd ∈ sortByName files, (fd.2.map Prod.fst).Nodup :=
    fun fd h => hkeys fd ((sortByName_perm files).mem_iff.mp h)
  rw [averageGroup_decomp files hne]
  simp only [List.mem_append]
  constructor
  · rintro (h1 | h1)
    · rw [aggStateOf_eq] at h1
      rcases warn_shape_runFiles _ _ h1 with ⟨k', g, hkg⟩
      exact absurd hkg (by simp)
    · rcases List.mem_filterMap.mp h1 with ⟨k', hk', hbw⟩
      rcases buildW_shape _ _ _ _ hbw with ⟨c', hd, hcnt, hc0, hct⟩
      simp only [Diag.coverage.injEq] at hd
      obtain ⟨hk1, hk2, hk3⟩ := hd
      rw [← hk1] at hcnt
      rw [aggStateOf_eq, counts_runFiles _ hLkeys k] at hcnt
      unfold optLenOf at hcnt
      by_cases hnil : numOccsK k (sortByName files) = []
      · rw [if_pos hnil] at hcnt
        exact absurd hcnt (by simp)
      · rw [if_neg hnil] at hcnt
        refine ⟨hnil, ?_, hk3, ?_⟩
        · rw [hk2, ← Option.some_inj.mp hcnt]
        · rw [hk2, ← hk3]
          rw [← hk3] at hct
          exact hct
  · rintro ⟨hnil, rfl, rfl, hct⟩
    right
    apply List.mem_filterMap.mpr
    refine ⟨k, ?_, ?_⟩
    · rcases List.exists_mem_of_ne_nil _ hnil with ⟨q, hq⟩
      rcases List.mem_filterMap.mp hq with ⟨fd, hfd, hocc⟩
      have hkfd : k ∈ fd.2.map Prod.fst := by
        cases hg : alGet fd.2 k with
        | some v => exact (alGet_isSome_iff _ _).mp (by simp [hg])
        | none => rw [hg] at hocc; simp at hocc
      rw [aggStateOf_eq]
      exact (keyOrder_mem_runFiles _ k).mpr ⟨fd, hfd, hkfd⟩
    · rw [aggStateOf_eq]
      unfold buildW
      rw [sums_runFiles _ hLkeys k, counts_runFiles _ hLkeys k]
      unfold optSumOf optLenOf
      rw [if_neg hnil, if_neg hnil]
      simp only [Option.getD_some]
      have hlen : (numOccsK k (sortByName files)).length ≠ 0 := by
        simpa [List.length_eq_zero] using hnil
      rw [if_neg hlen, if_pos hct]

theorem inconsistent_count_avg (files : List (String × Record)) (hne : files ≠ [])
    (hkeys : ∀ fd ∈ files, (fd.2.map Prod.fst).Nodup) (k f : String) :
    ((average_group files).2).count (.inconsistent k f) =
      inconCount k f (sortByName files) := by
  have hLkeys : ∀ fd ∈ sortByName files, (fd.2.map Prod.fst).Nodup :=
    fun fd h => hkeys fd ((sortByName_perm files).mem_iff.mp h)
  rw [averageGroup_decomp files hne]
  simp only [List.count_append]
  rw [aggStateOf_eq, warnings_count_runFiles _ hLkeys k f]
  have hz : (((runFiles (sortByName files)).keyOrder.filterMap
      (buildW files.length (runFiles (sortByName files)))).count (.inconsistent k f)) = 0 := by
    rw [List.count_eq_zero]
    intro hmem
    rcases List.mem_filterMap.mp hmem with ⟨k', hk', hbw⟩
    rcases buildW_shape _ _ _ _ hbw with ⟨c', hd, _⟩
    exact absurd hd (by simp)
  rw [hz]
  omega

theorem missing_not_mem_avg (files : List (String × Record)) (k f : String) :
    Diag.numericMissing k f ∉ (average_group files).2 := by
  by_cases hne : files = []
  · subst hne
    intro h
    simp [average_group] at h
  · rw [averageGroup_decomp files hne]
    simp only [List.mem_append]
    rintro (h1 | h1)
    · rw [aggStateOf_eq] at h1
      rcases warn_shape_runFiles _ _ h1 with ⟨k', g, hkg⟩
      exact absurd hkg (by simp)
    · rcases List.mem_filterMap.mp h1 with ⟨k', hk', hbw⟩
      rcases buildW_shape _ _ _ _ hbw with ⟨c', hd, _⟩
      exact absurd hd (by simp)

theorem sumsKey_in_output (files : List (String × Record)) (k : String)
    (h : (alGet (aggStateOf files).sums k).isSome) :
    (alGet (average_group files).1 k).isSome := by
  by_cases hne : files = []
  · subst hne
    rw [aggStateOf_eq] at h
    simp [sortByName, List.insertionSort, runFiles, initState, alGet_nil] at h
  · rw [averageGroup_decomp files hne]
    simp only
    by_cases hk : k = "number of runs"
    · subst hk
      rw [alGet_setKey_self]
      rfl
    · rw [alGet_setKey_ne _ _ _ _ hk]
      apply catchUp_isSome
      rcases List.mem_map.mp ((alGet_isSome_iff _ _).mp h) with ⟨kv, hkv, hfst⟩
      have := sums_covered files kv hkv
      rw [hfst] at this
      exact this

/-! ### The lexicographic order used by `sorted(file_list)` -/

theorem char_toNat_inj (a b : Char) (h : a.toNat = b.toNat) : a = b := by
  apply Char.ext
  apply UInt32.ext
  simpa [Char.toNat, UInt32.toNat] using h

theorem strLeB_total : ∀ a b : List Char, strLeB a b = true ∨ strLeB b a = true := by
  intro a
  induction a with
  | nil => intro b; left; rfl
  | cons x xs ih =>
      intro b
      cases b with
      | nil => right; rfl
      | cons y ys =>
          simp only [strLeB, charLtB, Bool.or_eq_true, Bool.and_eq_true, beq_iff_eq,
            decide_eq_true_eq]
          rcases Nat.lt_trichotomy x.toNat y.toNat with hlt | heq | hgt
          · exact Or.inl (Or.inl hlt)
          · rcases ih ys with h1 | h1
            · exact Or.inl (Or.inr ⟨heq, h1⟩)
            · exact Or.inr (Or.inr ⟨heq.symm, h1⟩)
          · exact Or.inr (Or.inl hgt)

theorem strLeB_trans : ∀ a b c : List Char,
    strLeB a b = true → strLeB b c = true → strLeB a c = true := by
  intro a
  induction a with
  | nil => intro b c _ _; rfl
  | cons x xs ih =>
      intro b c hab hbc
      cases b with
      | nil => exact absurd hab (by simp [strLeB])
      | cons y ys =>
          cases c with
          | nil => exact absurd hbc (by simp [strLeB])
          | cons z zs =>
              simp only [strLeB, charLtB, Bool.or_eq_true, Bool.and_eq_true, beq_iff_eq,
                decide_eq_true_eq] at hab hbc ⊢
              rcases hab with h1 | ⟨h1, h1'⟩
              · rcases hbc with h2 | ⟨h2, h2'⟩
                · exact Or.inl (Nat.lt_trans h1 h2)
                · exact Or.inl (h2 ▸ h1)
              · rcases hbc with h2 | ⟨h2, h2'⟩
                · exact Or.inl (h1 ▸ h2)
                · exact Or.inr ⟨h1.trans h2, ih ys zs h1' h2'⟩

theorem strLeB_antisymm : ∀ a b : List Char,
    strLeB a b = true → strLeB b a = true → a = b := by
  intro a
  induction a with
  | nil =>
      intro b _ hba
      cases b with
      | nil => rfl
      | cons y ys => exact absurd hba (by simp [strLeB])
  | cons x xs ih =>
      intro b hab hba
      cases b with
      | nil => exact absurd hab (by simp [strLeB])
      | cons y ys =>
          simp only [strLeB, charLtB, Bool.or_eq_true, Bool.and_eq_true, beq_iff_eq,
            decide_eq_true_eq] at hab hba
          rcases hab with h1 | ⟨h1, h1'⟩
          · rcases hba with h2 | ⟨h2, h2'⟩
            · exact absurd h2 (Nat.lt_asymm h1)
            · exact absurd (h2 ▸ h1) (Nat.lt_irrefl _)
          · rcases hba with h2 | ⟨h2, h2'⟩
            · exact absurd (h1 ▸ h2) (Nat.lt_irrefl _)
            · rw [char_toNat_inj x y h1, ih ys h1' h2']

theorem str_data_inj (a b : String) (h : a.data = b.data) : a = b := by
  cases a
  cases b
  exact congrArg String.mk h

instance : IsTotal (String × Record) leByName :=
  ⟨fun a b => strLeB_total a.1.data b.1.data⟩

instance : IsTrans (String × Record) leByName :=
  ⟨fun a b c hab hbc => strLeB_trans a.1.data b.1.data c.1.data hab hbc⟩

instance : IsAntisymm (String × Record) ltByName :=
  ⟨fun a b hab hba =>
    absurd (str_data_inj a.1 b.1 (strLeB_antisymm _ _ hab.1 hba.1)) hab.2⟩

theorem sortByName_sorted (files : List (String × Record)) :
    List.Sorted leByName (sortByName files) := List.sorted_insertionSort _ _

theorem sorted_lt_of_nodup (l : List (String × Record)) (hs : List.Sorted leByName l)
    (hnd : (l.map Prod.fst).Nodup) : List.Sorted ltByName l := by
  unfold List.Sorted at hs ⊢
  have hne : l.Pairwise (fun a b : String × Record => a.1 ≠ b.1) :=
    (List.pairwise_map).mp hnd
  exact (hs.and hne).imp (fun h => ⟨h.1, h.2⟩)

theorem sortByName_eq_of_perm (l l' : List (String × Record)) (hperm : l.Perm l')
    (hnames : (l.map Prod.fst).Nodup) : sortByName l = sortByName l' := by
  have hp : (sortByName l).Perm (sortByName l') :=
    ((sortByName_perm l).trans hperm).trans (sortByName_perm l').symm
  have hn1 : ((sortByName l).map Prod.fst).Nodup :=
    (((sortByName_perm l).map Prod.fst).nodup_iff).mpr hnames
  have hn2 : ((sortByName l').map Prod.fst).Nodup :=
    (((sortByName_perm l').map Prod.fst).nodup_iff).mpr
      (((hperm.map Prod.fst).nodup_iff).mp hnames)
  exact List.eq_of_perm_of_sorted hp
    (sorted_lt_of_nodup _ (sortByName_sorted l) hn1)
    (sorted_lt_of_nodup _ (sortByName_sorted l') hn2)

theorem averageGroup_perm (l l' : List (String × Record)) (hperm : l.Perm l')
    (hnames : (l.map Prod.fst).Nodup) : average_group l = average_group l' := by
  by_cases h : l = []
  · subst h
    rw [hperm.symm.eq_nil]
  · have h' : l' ≠ [] := fun hh => h (hperm.symm.symm.trans (hh ▸ List.Perm.refl l')).eq_nil
    have hsort : sortByName l = sortByName l' := sortByName_eq_of_perm l l' hperm hnames
    have hst : aggStateOf l = aggStateOf l' := by
      rw [aggStateOf_eq, aggStateOf_eq, hsort]
    unfold average_group
    rw [if_neg h, if_neg h']
    simp only
    rw [hst, hperm.length_eq]

/-! ### Names of non-numeric occurrences are distinct file names -/

theorem nonNumOccsK_names_sublist (k : String) (L : List (String × Record)) :
    ((nonNumOccsK k L).map Prod.fst).Sublist (L.map Prod.fst) := by
  induction L with
  | nil => simp [nonNumOccsK]
  | cons fd L ih =>
      unfold nonNumOccsK at ih ⊢
      rw [List.filterMap_cons]
      cases hg : alGet fd.2 k with
      | some v =>
          cases hnum : is_number v with
          | true =>
              simp only [hg, hnum, if_true]
              exact ih.trans (List.sublist_cons_self _ _)
          | false =>
              simp only [hg, hnum, Bool.false_eq_true, if_false, List.map_cons]
              exact List.Sublist.cons₂ _ ih
      | none =>
          simp only [hg]
          exact ih.trans (List.sublist_cons_self _ _)

theorem nonNumOccsK_names_nodup (k : String) (L : List (String × Record))
    (h : (L.map Prod.fst).Nodup) : ((nonNumOccsK k L).map Prod.fst).Nodup :=
  (nonNumOccsK_names_sublist k L).nodup h

theorem filter_name_unique (l : List (String × Value)) (hnd : (l.map Prod.fst).Nodup)
    (fv : String × Value) (hmem : fv ∈ l) (p : String × Value → Bool) :
    (l.filter (fun x => x.1 == fv.1 && p x)).length = if p fv then 1 else 0 := by
  induction l with
  | nil => simp at hmem
  | cons x l ih =>
      simp only [List.map_cons, List.nodup_cons] at hnd
      rcases List.mem_cons.mp hmem with h1 | h1
      · subst h1
        have hrest : l.filter (fun x => x.1 == fv.1 && p x) = [] := by
          rw [List.filter_eq_nil_iff]
          intro a ha
          have : a.1 ≠ fv.1 := by
            intro hh
            exact hnd.1 (hh ▸ List.mem_map_of_mem Prod.fst ha)
          simp [this]
        rw [List.filter_cons, hrest]
        cases hp : p fv <;> simp [hp]
      · have hne : x.1 ≠ fv.1 := by
          intro hh
          exact hnd.1 (hh ▸ List.mem_map_of_mem Prod.fst h1)
        rw [List.filter_cons]
        rw [if_neg (by simp [hne])]
        exact ih hnd.2 h1

theorem inconCount_eval (k : String) (L : List (String × Record))
    (hnames : (L.map Prod.fst).Nodup) (f0 : String) (w : Value)
    (rest : List (String × Value)) (hocc : nonNumOccsK k L = (f0, w) :: rest)
    (fv : String × Value) (hfv : fv ∈ rest) :
    inconCount k fv.1 L = if pyEq fv.2 w then 0 else 1 := by
  unfold inconCount
  rw [hocc]
  show (rest.filter (fun x => x.1 == fv.1 && !pyEq x.2 w)).length =
    if pyEq fv.2 w = true then 0 else 1
  have hnd : (((f0, w) :: rest).map Prod.fst).Nodup := by
    rw [← hocc]
    exact nonNumOccsK_names_nodup k L hnames
  simp only [List.map_cons, List.nodup_cons] at hnd
  rw [filter_name_unique rest hnd.2 fv hfv (fun x => !pyEq x.2 w)]
  cases hpe : pyEq fv.2 w <;> simp [hpe]

/-! ### Cost estimator lemmas -/

theorem orZero_eq (x : ℚ) : orZero x = x := by
  unfold orZero
  split
  · simp_all
  · rfl

theorem afterLast_comp (n : List Char) :
    afterLastC '/' (afterLastC '.' n) =
      (n.reverse.takeWhile (fun x => x ≠ '.' ∧ x ≠ '/')).reverse := by
  unfold afterLastC
  rw [List.reverse_reverse, List.takeWhile_takeWhile]
  have hfun : (fun a => decide (decide (a ≠ '/') = true ∧ decide (a ≠ '.') = true)) =
      (fun x : Char => decide (x ≠ '.' ∧ x ≠ '/')) := by
    funext a
    by_cases h1 : a = '.' <;> by_cases h2 : a = '/' <;> simp [h1, h2]
  rw [hfun]

theorem find?_map_fst (l : List (String × ℚ × ℚ)) (p : String → Bool) :
    (l.map Prod.fst).find? p = (l.find? (fun kv => p kv.1)).map Prod.fst := by
  induction l with
  | nil => rfl
  | cons kv l ih =>
      rw [List.map_cons, List.find?_cons, List.find?_cons]
      cases hp : p kv.1 <;> simp [hp, ih]

theorem normalize_eq_spec (m : String) : normalize_model_key m = specResolveName m := by
  unfold normalize_model_key specResolveName
  by_cases hm : m = ""
  · simp [hm]
  · rw [if_neg hm, if_neg hm]
    simp only
    by_cases h1 : inPrices (pyLower (pyStrip m.data)) = true
    · rw [if_pos h1, if_pos h1]
    · rw [if_neg h1, if_neg h1, afterLast_comp (pyLower (pyStrip m.data))]
      by_cases h2 : inPrices
          (((pyLower (pyStrip m.data)).reverse.takeWhile
            (fun x => x ≠ '.' ∧ x ≠ '/')).reverse) = true
      · rw [if_pos h2, if_pos h2]
      · rw [if_neg h2, if_neg h2]
        rw [find?_map_fst PRICES (fun k => listHasSub k.data (pyLower (pyStrip m.data)))]
        cases hf : PRICES.find? (fun kv => listHasSub kv.1.data (pyLower (pyStrip m.data))) with
        | some kv => simp [hf]
        | none => simp [hf]

theorem cost_zero_of_unresolved (m : String) (i o : ℚ)
    (h : normalize_model_key m = "") : compute_cost_usd m i o = 0 := by
  unfold compute_cost_usd
  rw [h]
  rw [if_pos (Or.inl rfl)]

theorem cost_formula (m k : String) (pin pout i o : ℚ)
    (hk : normalize_model_key m = k) (hne : k ≠ "")
    (hp : alGet PRICES k = some (pin, pout)) :
    compute_cost_usd m i o = i * (pin / 1000000) + o * (pout / 1000000) := by
  unfold compute_cost_usd
  rw [hk, if_neg (by simp [hne, hp]), hp, orZero_eq, orZero_eq]

/-! ### `SUMMARY_PATTERN` and `collect_groups` lemmas -/

theorem dropPfx_eq_some (p : List Char) : ∀ l r : List Char,
    dropPfx p l = some r ↔ l = p ++ r := by
  induction p with
  | nil =>
      intro l r
      simp [dropPfx, eq_comm]
  | cons c cs ih =>
      intro l r
      cases l with
      | nil => simp [dropPfx]
      | cons x xs =>
          simp only [dropPfx, List.cons_append, List.cons.injEq]
          by_cases h : c = x
          · rw [if_pos h, ih xs r]
            simp [h]
          · rw [if_neg h]
            constructor
            · intro hh
              exact absurd hh (by simp)
            · rintro ⟨h1, h2⟩
              exact absurd h1.symm h

theorem stripTail_eq_some (sfx cs R : List Char) :
    stripTail sfx cs = some R ↔ cs = R ++ sfx := by
  unfold stripTail
  simp only [Option.map_eq_some']
  constructor
  · rintro ⟨r, hdrop, hrev⟩
    have := (dropPfx_eq_some sfx.reverse cs.reverse r).mp hdrop
    have h2 : cs.reverse.reverse = (sfx.reverse ++ r).reverse := by rw [this]
    rw [List.reverse_reverse, List.reverse_append, List.reverse_reverse] at h2
    rw [h2, hrev]
  · intro h
    refine ⟨R.reverse, ?_, List.reverse_reverse R⟩
    rw [dropPfx_eq_some]
    rw [h, List.reverse_append]

theorem splitLastU_none (cs : List Char) : splitLastU cs = none ↔ '_' ∉ cs := by
  induction cs with
  | nil => simp [splitLastU]
  | cons c cs ih =>
      simp only [splitLastU, List.mem_cons, not_or]
      cases hrec : splitLastU cs with
      | some AB => simp [ih.symm, hrec]
      | none =>
          simp only
          by_cases h : c = '_'
          · subst h
            rw [if_pos rfl]
            constructor
            · intro hh
              exact absurd hh (by simp)
            · rintro ⟨h1, h2⟩
              exact absurd rfl h1
          · rw [if_neg h]
            constructor
            · intro _
              exact ⟨fun hh => h hh.symm, ih.mp hrec⟩
            · intro _
              rfl

theorem splitLastU_some (cs : List Char) : ∀ A B : List Char,
    splitLastU cs = some (A, B) → cs = A ++ '_' :: B ∧ '_' ∉ B := by
  induction cs with
  | nil => intro A B h; simp [splitLastU] at h
  | cons c cs ih =>
      intro A B h
      simp only [splitLastU] at h
      cases hrec : splitLastU cs with
      | some AB =>
          obtain ⟨A', B'⟩ := AB
          rw [hrec] at h
          simp only [Option.some_inj, Prod.mk.injEq] at h
          obtain ⟨hA, hB⟩ := h
          rcases ih A' B' hrec with ⟨hcs, hnB⟩
          subst hA
          subst hB
          rw [hcs]
          exact ⟨rfl, hnB⟩
      | none =>
          rw [hrec] at h
          by_cases hc : c = '_'
          · rw [if_pos hc] at h
            simp only [Option.some_inj, Prod.mk.injEq] at h
            obtain ⟨hA, hB⟩ := h
            subst hA
            subst hB
            rw [hc]
            exact ⟨rfl, (splitLastU_none cs).mp hrec⟩
          · rw [if_neg hc] at h
            exact absurd h (by simp)

theorem splitLastU_of_decomp (A : List Char) (B : List Char) (hB : '_' ∉ B) :
    splitLastU (A ++ '_' :: B) = some (A, B) := by
  induction A with
  | nil =>
      show splitLastU ('_' :: B) = some ([], B)
      simp only [splitLastU]
      rw [(splitLastU_none B).mpr hB]
      simp
  | cons a A ih =>
      rw [List.cons_append]
      show splitLastU ('_' :: B |> fun x => a :: (A ++ x)) = some (a :: A, B)
      simp only [splitLastU, ih]

theorem pyMatchCore_iff (cs P : List Char) :
    pyMatchCore cs = some P ↔
      ∃ T : List Char, cs = P ++ "_id".data ++ T ++ sfxChars ∧
        T ≠ [] ∧ '_' ∉ T ∧ P ≠ [] ∧ '\n' ∉ P := by
  have hid : ("_id".data : List Char) = ['_', 'i', 'd'] := rfl
  constructor
  · intro h
    unfold pyMatchCore at h
    split at h
    · exact absurd h (by simp)
    · rename_i R hst
      split at h
      · exact absurd h (by simp)
      · rename_i A B hsp
        rcases splitLastU_some R A B hsp with ⟨hR, hnB⟩
        split at h
        · rename_i T
          split at h
          · rename_i hcond
            have hPA : P = A := Option.some_inj.mp h.symm
            subst hPA
            refine ⟨T, ?_, hcond.1, ?_, hcond.2.1, hcond.2.2⟩
            · rw [(stripTail_eq_some sfxChars cs R).mp hst, hR, hid]
              simp
            · simp only [List.mem_cons, not_or] at hnB
              exact hnB.2.2
          · exact absurd h (by simp)
        · exact absurd h (by simp)
  · rintro ⟨T, hcs, hT, hnT, hP, hnP⟩
    unfold pyMatchCore
    have hst : stripTail sfxChars cs = some (P ++ '_' :: 'i' :: 'd' :: T) := by
      rw [stripTail_eq_some, hcs, hid]
      simp
    have hnB : '_' ∉ ('i' :: 'd' :: T) := by
      simp only [List.mem_cons, not_or]
      exact ⟨by decide, by decide, hnT⟩
    simp only [hst, splitLastU_of_decomp P ('i' :: 'd' :: T) hnB]
    simp [hT, hP, hnP]

theorem listIsPfx_iff (a : List Char) : ∀ b, listIsPfx a b = true ↔ ∃ r, b = a ++ r := by
  induction a with
  | nil =>
      intro b
      simp only [listIsPfx, List.nil_append]
      constructor
      · intro _
        exact ⟨b, rfl⟩
      · intro _
        trivial
  | cons x xs ih =>
      intro b
      cases b with
      | nil =>
          simp only [listIsPfx]
          constructor
          · intro hh
            exact absurd hh (by simp)
          · rintro ⟨r, hr⟩
            exact absurd hr (by simp)
      | cons y ys =>
          simp only [listIsPfx, Bool.and_eq_true, beq_iff_eq, List.cons_append,
            List.cons.injEq, ih ys]
          constructor
          · rintro ⟨h1, r, h2⟩
            exact ⟨r, h1.symm, h2⟩
          · rintro ⟨r, h1, h2⟩
            exact ⟨h1.symm, r, h2⟩

theorem globStarJson_iff (name : String) :
    globStarJson name = true ↔ ∃ r, name.data = r ++ ".json".data := by
  unfold globStarJson
  rw [listIsPfx_iff]
  constructor
  · rintro ⟨r, hr⟩
    refine ⟨r.reverse, ?_⟩
    have h2 : name.data.reverse.reverse = (".json".data.reverse ++ r).reverse := by rw [hr]
    rw [List.reverse_reverse, List.reverse_append, List.reverse_reverse] at h2
    exact h2
  · rintro ⟨r, hr⟩
    refine ⟨r.reverse, ?_⟩
    rw [hr, List.reverse_append]

theorem pyMatchName_eq_core (name : String) (h : ¬ name.data.getLast? = some '\n') :
    pyMatchName name = (pyMatchCore name.data).map String.mk := by
  unfold pyMatchName
  simp only
  rw [if_neg h]

/-- Does `collect_groups` route name `n` into cohort `g`? -/
def groupPred (g : String) (n : String) : Bool :=
  globStarJson n && (pyMatchName n == some g)

theorem collect_groups_go (names : List String) :
    ∀ (gs : List (String × List String)) (prior : String → List String),
      (∀ g, alGet gs g = if prior g = [] then none else some (prior g)) →
      ∀ g, alGet (names.foldl (fun gs n =>
          if globStarJson n then
            match pyMatchName n with
            | some p => addToGroup gs p n
            | none => gs
          else gs) gs) g =
        (if prior g ++ names.filter (groupPred g) = [] then none
         else some (prior g ++ names.filter (groupPred g))) := by
  induction names with
  | nil =>
      intro gs prior hinv g
      simp only [List.foldl_nil, List.filter_nil, List.append_nil]
      exact hinv g
  | cons n rest ih =>
      intro gs prior hinv g
      rw [List.foldl_cons]
      have key : ∀ g, (if groupPred g n then [n] else []) ++ rest.filter (groupPred g) =
          (n :: rest).filter (groupPred g) := by
        intro g
        rw [List.filter_cons]
        cases hp : groupPred g n <;> simp [hp]
      by_cases hglob : globStarJson n = true
      · cases hmatch : pyMatchName n with
        | some p =>
            rw [if_pos hglob]
            simp only [hmatch]
            have hstep := ih (addToGroup gs p n)
              (fun g => prior g ++ (if groupPred g n then [n] else [])) ?_ g
            · rw [hstep]
              simp only [List.append_assoc, key g]
            · intro g'
              simp only
              by_cases hg : g' = p
              · subst hg
                have hpred : groupPred g' n = true := by
                  unfold groupPred
                  rw [hglob, hmatch]
                  simp
                have hif : (if groupPred g' n = true then [n] else []) = [n] := by
                  rw [hpred]
                  simp
                unfold addToGroup
                cases hget : alGet gs g' with
                | some ms =>
                    have := hinv g'
                    rw [hget] at this
                    by_cases hnil : prior g' = []
                    · rw [if_pos hnil] at this
                      exact absurd this (by simp)
                    · rw [if_neg hnil] at this
                      have hms : ms = prior g' := (Option.some_inj.mp this.symm).symm
                      rw [alGet_setKey_self, hms, hif]
                      rw [if_neg (by simp)]
                | none =>
                    have := hinv g'
                    rw [hget] at this
                    by_cases hnil : prior g' = []
                    · rw [alGet_append, hget, hif, hnil]
                      simp [alGet_cons, alGet_nil]
                    · rw [if_neg hnil] at this
                      exact absurd this (by simp)
              · have hpred : groupPred g' n = false := by
                  unfold groupPred
                  rw [hmatch]
                  simp [hg]
                  intro _ hh
                  exact hg hh.symm
                have hif : (if groupPred g' n = true then [n] else []) = [] := by
                  rw [hpred]
                  simp
                rw [hif]
                simp only [List.append_nil]
                unfold addToGroup
                cases hget : alGet gs p with
                | some ms =>
                    rw [alGet_setKey_ne _ _ _ _ hg]
                    exact hinv g'
                | none =>
                    rw [alGet_append]
                    rw [show alGet gs g' = if prior g' = [] then none else some (prior g')
                      from hinv g']
                    by_cases hnil : prior g' = []
                    · have hne : p ≠ g' := fun hh => hg hh.symm
                      simp [hnil, alGet_cons, alGet_nil, hne]
                    · simp [hnil]
        | none =>
            rw [if_pos hglob]
            simp only [hmatch]
            have hstep := ih gs prior hinv g
            rw [hstep]
            have hpred : groupPred g n = false := by
              unfold groupPred
              rw [hmatch]
              simp
            rw [← key g, hpred]
            simp
      · rw [if_neg hglob]
        have hstep := ih gs prior hinv g
        rw [hstep]
        have hpred : groupPred g n = false := by
          unfold groupPred
          rw [Bool.eq_false_iff.mpr hglob]
          simp
        rw [← key g, hpred]
        simp

theorem collect_groups_char (names : List String) (g : String) :
    alGet (collect_groups names) g =
      (if names.filter (groupPred g) = [] then none
       else some (names.filter (groupPred g))) := by
  unfold collect_groups
  have := collect_groups_go names [] (fun _ => []) (fun g' => by simp [alGet_nil]) g
  simpa using this

/-! ### Chart-loader lemmas -/

theorem baseMetrics_absent (data : Record) (k : String) (h : k ∉ data.map Prod.fst) :
    alGet (baseMetrics data) k = none := by
  rw [alGet_eq_none_iff]
  intro hmem
  rcases List.mem_map.mp hmem with ⟨kv, hkv, hfst⟩
  rcases List.mem_filterMap.mp hkv with ⟨kv', hkv', hf⟩
  split at hf
  · exact absurd hf (by simp)
  · split at hf
    · have : kv.1 = kv'.1 := by
        rw [← Option.some_inj.mp hf]
      exact h (by rw [← hfst, this]; exact List.mem_map_of_mem Prod.fst hkv')
    · exact absurd hf (by simp)

theorem baseMetrics_get (data : Record) (hnd : (data.map Prod.fst).Nodup) (k : String)
    (hskip : k ∉ SKIP_KEYS) :
    alGet (baseMetrics data) k =
      match alGet data k with
      | some v => if isNumLoose v then some (pyFloatV v) else none
      | none => none := by
  induction data with
  | nil => rfl
  | cons kv rest ih =>
      obtain ⟨k₁, v₁⟩ := kv
      simp only [List.map_cons, List.nodup_cons] at hnd
      unfold baseMetrics
      rw [List.filterMap_cons]
      by_cases hk : k₁ = k
      · subst hk
        rw [if_neg (by simpa using hskip)]
        rw [alGet_cons, if_pos rfl]
        cases hloose : isNumLoose v₁ with
        | true =>
            simp only [hloose, if_true, alGet_cons, if_pos rfl]
        | false =>
            simp only [hloose, Bool.false_eq_true, if_false]
            have : alGet (baseMetrics rest) k₁ = none := baseMetrics_absent rest k₁ hnd.1
            unfold baseMetrics at this
            rw [this]
      · rw [alGet_cons, if_neg hk]
        have hrec := ih hnd.2
        unfold baseMetrics at hrec
        by_cases hs : k₁ ∈ SKIP_KEYS
        · rw [if_pos hs]
          exact hrec
        · rw [if_neg hs]
          cases hloose : isNumLoose v₁ with
          | true =>
              simp only [hloose, if_true]
              rw [alGet_cons, if_neg hk]
              exact hrec
          | false =>
              simp only [hloose, Bool.false_eq_true, if_false]
              exact hrec

theorem loadMetrics_keep (model : String) (data : Record)
    (hnd : (data.map Prod.fst).Nodup) (v : Value)
    (hv : alGet data "avg_cost_usd" = some v) (hnum : isNumLoose v = true)
    (hm : modelArg model data ≠ none) :
    loadMetrics model data = some (baseMetrics data) := by
  unfold loadMetrics
  have hskip : ("avg_cost_usd" : String) ∉ SKIP_KEYS := by
    simp [SKIP_KEYS]
  have hbase : (alGet (baseMetrics data) "avg_cost_usd").isSome := by
    rw [baseMetrics_get data hnd _ hskip, hv]
    simp [hnum]
  simp only
  by_cases htok : ((alGet (baseMetrics data) "avg_input_tokens").isSome = true ∨
      (alGet (baseMetrics data) "avg_output_tokens").isSome = true)
  · rw [if_pos htok]
    cases hma : modelArg model data with
    | none => exact absurd hma hm
    | some m => simp [hma, hbase]
  · rw [if_neg htok]

/-! ### Transfer lemmas for the claim statements -/

theorem numOccsK_allnum (k : String) (L : List (String × Record))
    (hall : ∀ fd ∈ L, (alGet fd.2 k).all is_number = true) :
    numOccsK k L = (L.filterMap (fun fd => alGet fd.2 k)).map toQ := by
  unfold numOccsK
  rw [List.map_filterMap]
  apply List.filterMap_congr
  intro fd hfd
  have h := hall fd hfd
  cases hg : alGet fd.2 k with
  | some v =>
      rw [hg] at h
      simp only [Option.all_some] at h
      simp [h]
  | none => simp [hg]

theorem nonNumOccsK_allnonnum (k : String) (L : List (String × Record))
    (hall : ∀ fd ∈ L, (alGet fd.2 k).all (fun v => !is_number v) = true) :
    (nonNumOccsK k L).map Prod.snd = L.filterMap (fun fd => alGet fd.2 k) := by
  unfold nonNumOccsK
  rw [List.map_filterMap]
  apply List.filterMap_congr
  intro fd hfd
  have h := hall fd hfd
  cases hg : alGet fd.2 k with
  | some v =>
      rw [hg] at h
      simp only [Option.all_some] at h
      simp only [Bool.not_eq_true'] at h
      simp [h, hg]
  | none => simp [hg]

theorem numOccsK_empty_allnonnum (k : String) (L : List (String × Record))
    (hall : ∀ fd ∈ L, (alGet fd.2 k).all (fun v => !is_number v) = true) :
    numOccsK k L = [] := by
  unfold numOccsK
  rw [List.filterMap_eq_nil_iff]
  intro fd hfd
  have h := hall fd hfd
  cases hg : alGet fd.2 k with
  | some v =>
      rw [hg] at h
      simp only [Option.all_some] at h
      simp only [Bool.not_eq_true'] at h
      simp [h]
  | none => simp [hg]

/-! ### The claims -/

/-- Claim C1, amended: for every non-empty cohort of N records in which a
numeric field OTHER THAN the synthetic `number of runs` field appears in
exactly M ≤ N of them with finite numeric values v₁..v_M, the
AggregateRecord produced by `average_group` maps that field to (Σvᵢ)/M,
and a coverage Diagnostic is emitted for that field iff M < N.  (The
amendment excludes the field name `number of runs`, whose output value is
unconditionally overridden by the run count.) -/
theorem claim_C1_avg_coverage (files : List (String × Record)) (k : String) (M : ℕ)
    (hne : files ≠ []) (hkeys : ∀ fd ∈ files, (fd.2.map Prod.fst).Nodup)
    (hk : k ≠ "number of runs")
    (hall : ∀ fd ∈ files, (alGet fd.2 k).all is_number = true)
    (hM : (files.filterMap (fun fd => alGet fd.2 k)).length = M) (hM1 : 0 < M) :
    alGet (average_group files).1 k =
      some (.num (((files.filterMap (fun fd => alGet fd.2 k)).map toQ).sum / (M : ℚ))) ∧
    (Diag.coverage k M files.length ∈ (average_group files).2 ↔ M < files.length) := by
  have hallL : ∀ fd ∈ sortByName files, (alGet fd.2 k).all is_number = true :=
    fun fd h => hall fd ((sortByName_perm files).mem_iff.mp h)
  have hnum_eq : numOccsK k (sortByName files) =
      ((sortByName files).filterMap (fun fd => alGet fd.2 k)).map toQ :=
    numOccsK_allnum k _ hallL
  have hperm : (((sortByName files).filterMap (fun fd => alGet fd.2 k)).map toQ).Perm
      ((files.filterMap (fun fd => alGet fd.2 k)).map toQ) :=
    (((sortByName_perm files).filterMap _).map _)
  have hlen : (numOccsK k (sortByName files)).length = M := by
    rw [hnum_eq, hperm.length_eq, List.length_map, hM]
  have hsum : (numOccsK k (sortByName files)).sum =
      ((files.filterMap (fun fd => alGet fd.2 k)).map toQ).sum := by
    rw [hnum_eq]
    exact hperm.sum_eq
  have hnil : numOccsK k (sortByName files) ≠ [] := by
    intro hh
    rw [hh] at hlen
    simp at hlen
    omega
  have hMN : M ≤ files.length := by
    rw [← hlen]
    calc (numOccsK k (sortByName files)).length
        ≤ (sortByName files).length := by
          unfold numOccsK
          exact List.length_filterMap_le _ _
      _ = files.length := (sortByName_perm files).length_eq
  constructor
  · rw [averageGroup_value files hne hkeys k hk, if_neg hnil, hsum, hlen]
  · rw [coverage_mem_avg_iff files hne hkeys k M files.length]
    constructor
    · rintro ⟨_, _, _, hne'⟩
      omega
    · intro hlt
      exact ⟨hnil, hlen.symm, rfl, by omega⟩

/-- Witness for C1, the spec's partial-coverage scenario: `latency_ms`
present in 2 of 3 records with values 10 and 20 averages to 15 with a
2/3 coverage warning. -/
theorem claim_C1_avg_coverage_witness :
    alGet (average_group
        [("a", [("latency_ms", Value.num 10)]), ("b", [("latency_ms", Value.num 20)]),
         ("c", ([] : Record))]).1 "latency_ms" = some (.num 15) ∧
    Diag.coverage "latency_ms" 2 3 ∈ (average_group
        [("a", [("latency_ms", Value.num 10)]), ("b", [("latency_ms", Value.num 20)]),
         ("c", ([] : Record))]).2 := by
  have h := claim_C1_avg_coverage
    [("a", [("latency_ms", Value.num 10)]), ("b", [("latency_ms", Value.num 20)]),
     ("c", ([] : Record))] "latency_ms" 2
    (by simp) (by decide) (by decide) (by decide) (by rfl) (by decide)
  obtain ⟨h1, h2⟩ := h
  constructor
  · rw [h1]
    have hvs : ([("a", [("latency_ms", Value.num 10)]), ("b", [("latency_ms", Value.num 20)]),
        ("c", ([] : Record))].filterMap (fun fd => alGet fd.2 "latency_ms")).map toQ
        = [10, 20] := by rfl
    rw [hvs]
    norm_num
  · exact h2.mpr (by decide)

/-- Counterexample to C1 as stated: the field `number of runs` is numeric
in the single record of the cohort with value 5 (so N = M = 1 and
(Σvᵢ)/M = 5), yet the AggregateRecord maps it to 1, the run count. -/
theorem claim_C1_counterexample :
    (([("f1", [("number of runs", Value.num 5)])] : List (String × Record)).filterMap
        (fun fd => alGet fd.2 "number of runs")) = [Value.num 5] ∧
    alGet (average_group [("f1", [("number of runs", Value.num 5)])]).1 "number of runs" =
      some (Value.num 1) ∧
    Value.num 1 ≠ Value.num 5 := by
  refine ⟨by rfl, by rfl, by decide⟩

/-- Claim C2: for every non-empty cohort, the AggregateRecord contains the
field `number of runs` with value the cohort's record count, even when an
input record itself carries a field of that name. -/
theorem claim_C2_run_count (files : List (String × Record)) (hne : files ≠ []) :
    alGet (average_group files).1 "number of runs" =
      some (.num (files.length : ℚ)) := by
  rw [averageGroup_decomp files hne]
  simp only
  exact alGet_setKey_self _ _ _

/-- Witness for C2 on a cohort whose single record itself carries a
conflicting `number of runs` field: the synthetic value 1 wins. -/
theorem claim_C2_run_count_witness :
    alGet (average_group [("a", [("number of runs", Value.num 99)])]).1 "number of runs" =
      some (.num 1) := by
  simpa using claim_C2_run_count [("a", [("number of runs", Value.num 99)])] (by simp)

/-- Claim C3, amended: for every cohort and every field with two or more
non-numeric occurrences, each later occurrence (in processing order,
lexicographic by file name) whose value differs by Python equality from
the first-seen value causes exactly one `inconsistent` Diagnostic naming
the field and the conflicting record's source identifier (and an equal
later occurrence causes none); no exception is raised (the embedding is a
total function); and, PROVIDED the field has no finite-numeric occurrence
in the cohort and is not named `number of runs`, the retained value in the
AggregateRecord is the first-seen one.  (The amendment adds the two
provisos: a numeric occurrence makes the output the numeric average, and
`number of runs` is overridden by the run count.) -/
theorem claim_C3_first_seen (files : List (String × Record)) (k : String)
    (hne : files ≠ []) (hnames : (files.map Prod.fst).Nodup)
    (hkeys : ∀ fd ∈ files, (fd.2.map Prod.fst).Nodup)
    (f0 : String) (w : Value) (rest : List (String × Value))
    (hocc : nonNumOccsK k (sortByName files) = (f0, w) :: rest) (h2 : rest ≠ []) :
    (∀ fv ∈ rest, ((average_group files).2).count (.inconsistent k fv.1) =
      if pyEq fv.2 w then 0 else 1) ∧
    (numOccsK k (sortByName files) = [] → k ≠ "number of runs" →
      alGet (average_group files).1 k = some w) := by
  have hnamesL : ((sortByName files).map Prod.fst).Nodup :=
    (((sortByName_perm files).map Prod.fst).nodup_iff).mpr hnames
  constructor
  · intro fv hfv
    rw [inconsistent_count_avg files hne hkeys k fv.1]
    exact inconCount_eval k (sortByName files) hnamesL f0 w rest hocc fv hfv
  · intro hnil hk
    rw [averageGroup_value files hne hkeys k hk, if_pos hnil, hocc]
    rfl

/-- Witness for C3, the spec's mismatch scenario: records a=`"ok"`,
b=`"retry"` on the non-numeric field `status` keep `"ok"` and emit exactly
one consistency warning naming `status` and `b`. -/
theorem claim_C3_first_seen_witness :
    ((average_group [("a", [("status", Value.strV "ok")]),
        ("b", [("status", Value.strV "retry")])]).2).count
      (.inconsistent "status" "b") = 1 ∧
    alGet (average_group [("a", [("status", Value.strV "ok")]),
        ("b", [("status", Value.strV "retry")])]).1 "status" =
      some (Value.strV "ok") := by
  have h := claim_C3_first_seen
    [("a", [("status", Value.strV "ok")]), ("b", [("status", Value.strV "retry")])]
    "status" (by simp) (by decide) (by decide) "a" (Value.strV "ok")
    [("b", Value.strV "retry")] (by rfl) (by decide)
  refine ⟨?_, h.2 (by rfl) (by decide)⟩
  have h1 := h.1 ("b", Value.strV "retry") (by decide)
  rw [h1]
  decide

/-- Counterexample to C3 as stated: the field `s` has two non-numeric
occurrences ("ok" then "retry") but also one numeric occurrence (5), so
the AggregateRecord retains the numeric average 5, not the first-seen
non-numeric value "ok". -/
theorem claim_C3_counterexample :
    nonNumOccsK "s" (sortByName [("a", [("s", Value.num 5)]),
        ("b", [("s", Value.strV "ok")]), ("c", [("s", Value.strV "retry")])]) =
      [("b", Value.strV "ok"), ("c", Value.strV "retry")] ∧
    alGet (average_group [("a", [("s", Value.num 5)]),
        ("b", [("s", Value.strV "ok")]), ("c", [("s", Value.strV "retry")])]).1 "s" =
      some (Value.num 5) ∧
    Value.num 5 ≠ Value.strV "ok" := by
  refine ⟨by rfl, ?_, by decide⟩
  have h := averageGroup_value [("a", [("s", Value.num 5)]),
      ("b", [("s", Value.strV "ok")]), ("c", [("s", Value.strV "retry")])]
    (by simp) (by decide) "s" (by decide)
  rw [h]
  have hnum : numOccsK "s" (sortByName [("a", [("s", Value.num 5)]),
      ("b", [("s", Value.strV "ok")]), ("c", [("s", Value.strV "retry")])]) = [5] := by rfl
  rw [hnum]
  norm_num

/-- Claim C5, amended: classification is per-occurrence, not locked per
field.  For every field OTHER THAN `number of runs` with at least one
finite-numeric occurrence, the AggregateRecord value is the average of
the numeric occurrences only; independently, the non-numeric occurrences
of the same field are tracked first-seen and each later differing one
emits exactly one consistency Diagnostic, without affecting the averaged
value; and booleans and non-finite numbers count as non-numeric.  (The
amendment excludes `number of runs`, whose output value is overridden by
the run count.) -/
theorem claim_C5_per_occurrence (files : List (String × Record)) (k : String)
    (hne : files ≠ []) (hnames : (files.map Prod.fst).Nodup)
    (hkeys : ∀ fd ∈ files, (fd.2.map Prod.fst).Nodup) (hk : k ≠ "number of runs")
    (hnum : numOccsK k (sortByName files) ≠ []) :
    alGet (average_group files).1 k =
      some (.num ((numOccsK k (sortByName files)).sum /
        ((numOccsK k (sortByName files)).length : ℚ))) ∧
    (∀ (f0 : String) (w : Value) (rest : List (String × Value)),
      nonNumOccsK k (sortByName files) = (f0, w) :: rest →
      ∀ fv ∈ rest, ((average_group files).2).count (.inconsistent k fv.1) =
        if pyEq fv.2 w then 0 else 1) ∧
    is_number (Value.boolV true) = false ∧ is_number (Value.boolV false) = false ∧
    is_number Value.nanV = false ∧ is_number Value.infV = false ∧
    is_number Value.ninfV = false := by
  have hnamesL : ((sortByName files).map Prod.fst).Nodup :=
    (((sortByName_perm files).map Prod.fst).nodup_iff).mpr hnames
  refine ⟨?_, ?_, rfl, rfl, rfl, rfl, rfl⟩
  · rw [averageGroup_value files hne hkeys k hk, if_neg hnum]
  · intro f0 w rest hocc fv hfv
    rw [inconsistent_count_avg files hne hkeys k fv.1]
    exact inconCount_eval k (sortByName files) hnamesL f0 w rest hocc fv hfv

/-- Witness for C5: the field `x` is numeric (1 and 3) in two records and
a string in a third; the output is the numeric average 2. -/
theorem claim_C5_per_occurrence_witness :
    alGet (average_group [("a", [("x", Value.num 1)]), ("b", [("x", Value.strV "s")]),
        ("c", [("x", Value.num 3)])]).1 "x" = some (.num 2) := by
  have h := (claim_C5_per_occurrence
    [("a", [("x", Value.num 1)]), ("b", [("x", Value.strV "s")]),
     ("c", [("x", Value.num 3)])] "x"
    (by simp) (by decide) (by decide) (by decide) (by decide)).1
  have hev : numOccsK "x" (sortByName [("a", [("x", Value.num 1)]),
      ("b", [("x", Value.strV "s")]), ("c", [("x", Value.num 3)])]) = [1, 3] := by rfl
  rw [hev] at h
  rw [h]
  norm_num

/-- Counterexample to C5 as stated: `number of runs` is numeric in both
records (7 and 9, average 8), yet the AggregateRecord maps it to the run
count 2. -/
theorem claim_C5_counterexample :
    numOccsK "number of runs" (sortByName [("g1", [("number of runs", Value.num 7)]),
        ("g2", [("number of runs", Value.num 9)])]) = [7, 9] ∧
    alGet (average_group [("g1", [("number of runs", Value.num 7)]),
        ("g2", [("number of runs", Value.num 9)])]).1 "number of runs" =
      some (Value.num 2) ∧
    (([7, 9] : List ℚ).sum / (([7, 9] : List ℚ).length : ℚ) = 8) ∧ (2 : ℚ) ≠ 8 := by
  refine ⟨by rfl, ?_, by norm_num, by norm_num⟩
  have h : alGet (average_group [("g1", [("number of runs", Value.num 7)]),
      ("g2", [("number of runs", Value.num 9)])]).1 "number of runs" =
      some (Value.num ((2 : ℕ) : ℚ)) := by rfl
  simpa using h

/-- Claim C8, amended: permuting the input record list of a cohort (with
its distinct source identifiers) leaves the whole output of
`average_group` unchanged, because records are processed in lexicographic
order of source identifier; and for every field OTHER THAN
`number of runs` that is non-numeric wherever it occurs, the
representative output value is the value from the lexicographically-first
record that carries it.  (The amendment excludes `number of runs`, whose
output value is overridden by the run count.) -/
theorem claim_C8_reordering (l l' : List (String × Record)) (hperm : l.Perm l')
    (hnames : (l.map Prod.fst).Nodup) (hkeys : ∀ fd ∈ l, (fd.2.map Prod.fst).Nodup)
    (hne : l ≠ []) :
    average_group l = average_group l' ∧
    (∀ k, k ≠ "number of runs" →
      (∀ fd ∈ l, (alGet fd.2 k).all (fun v => !is_number v) = true) →
      alGet (average_group l).1 k =
        ((sortByName l).filterMap (fun fd => alGet fd.2 k)).head?) := by
  constructor
  · exact averageGroup_perm l l' hperm hnames
  · intro k hk hall
    have hallL : ∀ fd ∈ sortByName l, (alGet fd.2 k).all (fun v => !is_number v) = true :=
      fun fd h => hall fd ((sortByName_perm l).mem_iff.mp h)
    rw [averageGroup_value l hne hkeys k hk,
      if_pos (numOccsK_empty_allnonnum k _ hallL),
      ← nonNumOccsK_allnonnum k _ hallL]
    simp [List.head?_map]

/-- Witness for C8: swapping the two records changes nothing, and the
non-numeric field `y` keeps the value of the lexicographically-first
record `a`. -/
theorem claim_C8_reordering_witness :
    average_group [("b", [("y", Value.strV "B")]), ("a", [("y", Value.strV "A")])] =
      average_group [("a", [("y", Value.strV "A")]), ("b", [("y", Value.strV "B")])] ∧
    alGet (average_group [("b", [("y", Value.strV "B")]),
        ("a", [("y", Value.strV "A")])]).1 "y" = some (Value.strV "A") := by
  have h := claim_C8_reordering
    [("b", [("y", Value.strV "B")]), ("a", [("y", Value.strV "A")])]
    [("a", [("y", Value.strV "A")]), ("b", [("y", Value.strV "B")])]
    (by decide) (by decide) (by decide) (by simp)
  refine ⟨h.1, ?_⟩
  rw [h.2 "y" (by decide) (by decide)]
  rfl

/-- Counterexample to C8 as stated: the field `number of runs` is
non-numeric in the only record carrying it, yet the output value is the
run count 1, not the lexicographically-first carried value "x". -/
theorem claim_C8_counterexample :
    ((sortByName [("a", [("number of runs", Value.strV "x")])]).filterMap
        (fun fd => alGet fd.2 "number of runs")).head? = some (Value.strV "x") ∧
    alGet (average_group [("a", [("number of runs", Value.strV "x")])]).1
      "number of runs" = some (Value.num 1) ∧
    Value.num 1 ≠ Value.strV "x" := by
  exact ⟨by rfl, by rfl, by decide⟩

/-- Claim C9: in `average_group`, every key of `sums` has a count of at
least one, so the zero-count guard is dead code: no "Numeric key ...
missing" Diagnostic is ever emitted, and no field with a `sums` entry is
dropped from the output by the zero-count branch. -/
theorem claim_C9_dead_guard (files : List (String × Record)) (k f : String) :
    Diag.numericMissing k f ∉ (average_group files).2 ∧
    ((alGet (aggStateOf files).sums k).isSome →
      (alGet (average_group files).1 k).isSome) :=
  ⟨missing_not_mem_avg files k f, sumsKey_in_output files k⟩

/-- Witness for C9 on a one-record cohort with a numeric field `x`. -/
theorem claim_C9_dead_guard_witness :
    Diag.numericMissing "x" "a" ∉
      (average_group [("a", [("x", Value.num 2)])]).2 ∧
    (alGet (average_group [("a", [("x", Value.num 2)])]).1 "x").isSome = true := by
  refine ⟨(claim_C9_dead_guard [("a", [("x", Value.num 2)])] "x" "a").1, ?_⟩
  exact (claim_C9_dead_guard [("a", [("x", Value.num 2)])] "x" "a").2 (by rfl)

theorem json_suffix_getLast (name : String) (r : List Char)
    (h : name.data = r ++ ".json".data) : name.data.getLast? = some 'n' := by
  rw [h, List.getLast?_append]
  rfl

theorem shape_glob (name : String) (P T : List Char)
    (h : name.data = P ++ "_id".data ++ T ++ sfxChars) :
    ∃ r, name.data = r ++ ".json".data := by
  refine ⟨P ++ "_id".data ++ T ++ "_summary".data, ?_⟩
  rw [h]
  have hs : (sfxChars : List Char) = "_summary".data ++ ".json".data := by rfl
  rw [hs]
  simp

/-- Claim C4, amended: `collect_groups` places a file name in a cohort iff
the name matches the shape `<key>_id<token>_summary.json` with the key
non-empty and newline-free and the token non-empty and underscore-free;
and the cohort key of a matching name is exactly the name with its
`_id<token>_summary.json` segment removed.  (The amendment adds the
newline restriction on the key, which the regex's `.+` group enforces;
names whose key contains a newline are not grouped.) -/
theorem claim_C4_grouping (names : List String) (name : String) (hmem : name ∈ names) :
    ((∃ g ms, alGet (collect_groups names) g = some ms ∧ name ∈ ms) ↔
      SummaryShapeNL name) ∧
    (∀ g ms, alGet (collect_groups names) g = some ms → name ∈ ms →
      ∃ T : List Char, name.data = g.data ++ "_id".data ++ T ++ sfxChars ∧
        T ≠ [] ∧ '_' ∉ T ∧ g.data ≠ [] ∧ '\n' ∉ g.data) := by
  have main : ∀ g ms, alGet (collect_groups names) g = some ms → name ∈ ms →
      pyMatchCore name.data = some g.data := by
    intro g ms hget hin
    rw [collect_groups_char names g] at hget
    by_cases hnil : names.filter (groupPred g) = []
    · rw [if_pos hnil] at hget
      exact absurd hget (by simp)
    · rw [if_neg hnil] at hget
      have hms : ms = names.filter (groupPred g) := (Option.some_inj.mp hget).symm
      subst hms
      have hp := (List.mem_filter.mp hin).2
      unfold groupPred at hp
      simp only [Bool.and_eq_true, beq_iff_eq] at hp
      obtain ⟨hglob, hmatch⟩ := hp
      rcases (globStarJson_iff name).mp hglob with ⟨r, hr⟩
      have hlast : ¬ name.data.getLast? = some '\n' := by
        rw [json_suffix_getLast name r hr]
        simp
      rw [pyMatchName_eq_core name hlast] at hmatch
      cases hcore : pyMatchCore name.data with
      | none => rw [hcore] at hmatch; exact absurd hmatch (by simp)
      | some P =>
          rw [hcore] at hmatch
          simp only [Option.map_some', Option.some_inj] at hmatch
          rw [← hmatch]
  constructor
  · constructor
    · rintro ⟨g, ms, hget, hin⟩
      rcases (pyMatchCore_iff name.data g.data).mp (main g ms hget hin) with
        ⟨T, hdec, hT, hnT, hP, hnP⟩
      exact ⟨g.data, T, hdec, hP, hT, hnT, hnP⟩
    · rintro ⟨P, T, hdec, hP, hT, hnT, hnP⟩
      have hcore : pyMatchCore name.data = some P :=
        (pyMatchCore_iff name.data P).mpr ⟨T, hdec, hT, hnT, hP, hnP⟩
      rcases shape_glob name P T hdec with ⟨r, hr⟩
      have hglob : globStarJson name = true := (globStarJson_iff name).mpr ⟨r, hr⟩
      have hlast : ¬ name.data.getLast? = some '\n' := by
        rw [json_suffix_getLast name r hr]
        simp
      have hmatch : pyMatchName name = some (String.mk P) := by
        rw [pyMatchName_eq_core name hlast, hcore]
        rfl
      have hpred : groupPred (String.mk P) name = true := by
        unfold groupPred
        rw [hglob, hmatch]
        simp
      have hinf : name ∈ names.filter (groupPred (String.mk P)) :=
        List.mem_filter.mpr ⟨hmem, hpred⟩
      refine ⟨String.mk P, names.filter (groupPred (String.mk P)), ?_, hinf⟩
      rw [collect_groups_char names (String.mk P),
        if_neg (List.ne_nil_of_mem hinf)]
  · intro g ms hget hin
    rcases (pyMatchCore_iff name.data g.data).mp (main g ms hget hin) with
      ⟨T, hdec, hT, hnT, hP, hnP⟩
    exact ⟨T, hdec, hT, hnT, hP, hnP⟩

/-- Witness for C4: a well-shaped name is grouped (under its key `m_a`). -/
theorem claim_C4_grouping_witness :
    ∃ g ms, alGet (collect_groups ["m_a_id1_summary.json"]) g = some ms ∧
      "m_a_id1_summary.json" ∈ ms :=
  (claim_C4_grouping ["m_a_id1_summary.json"] "m_a_id1_summary.json" (by simp)).1.mpr
    ⟨"m_a".data, "1".data, by rfl, by decide, by decide, by decide, by decide⟩

/-- Counterexample to C4 as stated: a name of the claimed shape whose key
contains a newline (`a\nb`) is rejected by the regex (whose `.+` does not
match a newline) and lands in no cohort. -/
theorem claim_C4_counterexample :
    SummaryShape "a\nb_idx_summary.json" ∧
    collect_groups ["a\nb_idx_summary.json"] = [] := by
  refine ⟨⟨"a\nb".data, "x".data, by rfl, by decide, by decide, by decide⟩, by rfl⟩

/-- Claim C6: a model-name string that resolves to no price-table key
yields cost exactly 0 for all token counts (and the estimator is a total
function, so it never raises). -/
theorem claim_C6_cost_fallback (model : String) (i o : ℚ)
    (h : normalize_model_key model = "") : compute_cost_usd model i o = 0 :=
  cost_zero_of_unresolved model i o h

/-- Witness for C6: the name "q" resolves to nothing and costs 0. -/
theorem claim_C6_cost_fallback_witness :
    normalize_model_key "q" = "" ∧ compute_cost_usd "q" 3 4 = 0 :=
  ⟨by rfl, claim_C6_cost_fallback "q" 3 4 (by rfl)⟩

/-- Claim C7: model-name resolution follows exactly the three tiers of the
specification — (a) exact match of the stripped lower-cased name, (b) else
exact match of the substring after the last dot and path separator, (c)
else the first price-table key in insertion order occurring as a substring
of the normalized name — and a resolved key's prices (p_in, p_out) give
cost input_tokens * p_in/1e6 + output_tokens * p_out/1e6. -/
theorem claim_C7_three_tier :
    (∀ m : String, normalize_model_key m = specResolveName m) ∧
    (∀ (m k : String) (pin pout i o : ℚ), normalize_model_key m = k → k ≠ "" →
      alGet PRICES k = some (pin, pout) →
      compute_cost_usd m i o = i * (pin / 1000000) + o * (pout / 1000000)) :=
  ⟨normalize_eq_spec,
   fun m k pin pout i o hk hne hp => cost_formula m k pin pout i o hk hne hp⟩

/-- Witness for C7 at the exact-match name "gpt-4o". -/
theorem claim_C7_three_tier_witness :
    normalize_model_key "gpt-4o" = specResolveName "gpt-4o" ∧
    compute_cost_usd "gpt-4o" 1000000 2 =
      1000000 * ((2.50 : ℚ) / 1000000) + 2 * ((10.00 : ℚ) / 1000000) :=
  ⟨claim_C7_three_tier.1 "gpt-4o",
   claim_C7_three_tier.2 "gpt-4o" "gpt-4o" 2.50 10.00 1000000 2 (by rfl) (by decide)
     (by rfl)⟩

/-- Claim C10, amended: when a summary record already contains a numeric
(int/float/bool) `avg_cost_usd` field, the chart loader's cost step leaves
the metrics mapping entirely unchanged — the computed cost is inserted
only when `avg_cost_usd` is absent, and no other metric entry is modified
— PROVIDED the record's `model name` field, when present and truthy, is a
string (otherwise the loader raises before the insertion is reached). -/
theorem claim_C10_cost_setdefault (model : String) (data : Record)
    (hnd : (data.map Prod.fst).Nodup) (v : Value)
    (hv : alGet data "avg_cost_usd" = some v) (hnum : isNumLoose v = true)
    (hm : modelArg model data ≠ none) :
    loadMetrics model data = some (baseMetrics data) ∧
    alGet (baseMetrics data) "avg_cost_usd" = some (pyFloatV v) := by
  refine ⟨loadMetrics_keep model data hnd v hv hnum hm, ?_⟩
  rw [baseMetrics_get data hnd _ (by simp [SKIP_KEYS]), hv]
  simp [hnum]

/-- Witness for C10: a record with `avg_cost_usd` = 7 and token counts
keeps 7 and the cost estimation changes nothing. -/
theorem claim_C10_cost_setdefault_witness :
    loadMetrics "m" [("avg_cost_usd", Value.num 7), ("avg_input_tokens", Value.num 2),
        ("model name", Value.strV "gpt-4o")] =
      some (baseMetrics [("avg_cost_usd", Value.num 7), ("avg_input_tokens", Value.num 2),
        ("model name", Value.strV "gpt-4o")]) ∧
    alGet (baseMetrics [("avg_cost_usd", Value.num 7), ("avg_input_tokens", Value.num 2),
        ("model name", Value.strV "gpt-4o")]) "avg_cost_usd" = some (Value.num 7) := by
  have h := claim_C10_cost_setdefault "m"
    [("avg_cost_usd", Value.num 7), ("avg_input_tokens", Value.num 2),
     ("model name", Value.strV "gpt-4o")]
    (by decide) (Value.num 7) (by rfl) (by rfl) (by decide)
  exact ⟨h.1, h.2⟩

/-- Counterexample to C10 as stated: a record holding a numeric
`avg_cost_usd` (7) together with token counts and a numeric (truthy,
non-string) `model name` makes the loader raise — the existing value is
not kept, no metrics mapping is produced at all. -/
theorem claim_C10_counterexample :
    alGet [("avg_cost_usd", Value.num 7), ("avg_input_tokens", Value.num 2),
        ("model name", Value.num 3)] "avg_cost_usd" = some (Value.num 7) ∧
    isNumLoose (Value.num 7) = true ∧
    loadMetrics "m" [("avg_cost_usd", Value.num 7), ("avg_input_tokens", Value.num 2),
        ("model name", Value.num 3)] = none := by
  exact ⟨by rfl, by rfl, by rfl⟩
